import Mathlib

/-!
Verification of the lexcube tile server (`lexcube_server/src/tile_server.py`).

The development shallowly embeds the data model and the operations of the
tile server: floating-point values are idealized as exact rationals, with
`none : Option ℚ` standing for NaN; machine byte strings are `List Nat`
(each entry one byte); the external compression codecs (zfp, blosc, lz4)
are abstract encode/decode pairs, with their documented contracts
(roundtrip, shape preservation) taken as explicit hypotheses where a
theorem needs them.
-/

/-- A floating-point value: `none` models NaN, `some q` a finite value. -/
abbrev FVal := Option ℚ

/-- A 2D float matrix (row-major list of rows). -/
abbrev Mat := List (List FVal)

/-- Byte strings are lists of naturals, each entry one byte. -/
abbrev Bytes := List Nat

/-- Cell access `m[i][j]`; out-of-bounds reads give NaN (used only in-bounds). -/
def cell (m : Mat) (i j : Nat) : FVal :=
  (m.getD i []).getD j none

/-- The matrix `m` has `a` rows, each of length `b`. -/
def HasShape (m : Mat) (a b : Nat) : Prop :=
  m.length = a ∧ ∀ r ∈ m, r.length = b

/-- Model of `np.all(np.isnan(source_values))`: `true` also on the empty matrix. -/
def matAllNaN (m : Mat) : Bool :=
  m.all (fun r => r.all (fun v => v.isNone))

/-- Model of `np.full((T, T), np.nan)` followed by
`tile_data[:source_values.shape[0], :source_values.shape[1]] = source_values`:
a `T × T` matrix holding `w` in its top-left corner and NaN elsewhere. -/
def padTile (T : Nat) (w : Mat) : Mat :=
  (List.range T).map (fun i => (List.range T).map (fun j => (w.getD i []).getD j none))

/-- Model of the NaN mask built in `Tile.compress_data`: 0 at valid cells,
NaN at NaN cells of the (already padded) tile data. -/
def nanMask (td : Mat) : Mat :=
  td.map (fun r => r.map (fun v => if v.isNone then none else some 0))

/-- Model of `np.nan_to_num(tile_data, copy=False)`: NaN becomes 0. -/
def nanToNum (m : Mat) : Mat :=
  m.map (fun r => r.map (fun v => some (v.getD 0)))

/-- All non-NaN entries of a matrix, row-major (as scanned by the np.nan* reductions). -/
def nanEntries (m : Mat) : List ℚ :=
  m.flatMap (fun r => r.filterMap id)

/-- Model of `np.nanmin(source_values)` (only used when some entry is non-NaN). -/
def nanminM (m : Mat) : ℚ :=
  (nanEntries m).foldl min ((nanEntries m).headD 0)

/-- Model of `np.nanmax(source_values)` (only used when some entry is non-NaN). -/
def nanmaxM (m : Mat) : ℚ :=
  (nanEntries m).foldl max ((nanEntries m).headD 0)

/-- Model of `np.nanmean(source_values)`. -/
def nanmeanM (m : Mat) : ℚ :=
  (nanEntries m).sum / (nanEntries m).length

/-- Model of `np.nanvar(source_values)`. -/
def nanvarM (m : Mat) : ℚ :=
  ((nanEntries m).map (fun x => (x - nanmeanM m) ^ 2)).sum / (nanEntries m).length

/-- Model of `np.abs(decompressed_tile_data[:s0, :s1] - source_values)`:
elementwise absolute difference over the extent of `w`, NaN-propagating. -/
def matSubAbsWindow (d : Mat) (w : Mat) : Mat :=
  (List.range w.length).map (fun i =>
    (List.range ((w.getD i []).length)).map (fun j =>
      match (d.getD i []).getD j none, (w.getD i []).getD j none with
      | some a, some b => some |a - b|
      | _, _ => none))

/-- Model of `np.nanmax(errors, initial=init)`: maximum of `init` and the
non-NaN entries. -/
def nanmaxInit (m : Mat) (init : ℚ) : ℚ :=
  (nanEntries m).foldl max init

/-- Elementwise matrix addition over the shape of `a` (NaN absorbing),
modelling `decompressed_body + nan_mask` in `Tile.decompress`. -/
def matAdd (a b : Mat) : Mat :=
  (List.range a.length).map (fun i =>
    (List.range ((a.getD i []).length)).map (fun j =>
      match (a.getD i []).getD j none, (b.getD i []).getD j none with
      | some x, some y => some (x + y)
      | _, _ => none))

/-- Model of `np.full((tile_size, tile_size), np.nan)`. -/
def allNaNTile (T : Nat) : Mat :=
  List.replicate T (List.replicate T (none : FVal))

/-- An abstract compression codec: `enc`odes a matrix into an opaque payload,
`dec`odes a payload back to a matrix, and `clen` gives the byte length of a
payload (`len(...)` in the source). Stands for zfp / blosc / lz4, which are
external libraries. -/
structure Codec (γ : Type) where
  enc : Mat → γ
  dec : γ → Mat
  clen : γ → Nat

/-- Model of `TileCompressor`: the lossless flag and the three codecs
(`ZfpCompressor`, `numcodecs.blosc.Blosc`, `numcodecs.lz4.LZ4`). The
per-call tolerance handling is internal to the abstract lossy codec. -/
structure TileCompressorM (γ : Type) where
  compress_lossless : Bool
  losslessCodec : Codec γ
  lossyCodec : Codec γ
  maskCodec : Codec γ

/-- `NAN_TILE_MAGIC_NUMBER = -1` from the source. -/
def NAN_TILE_MAGIC_NUMBER : ℚ := -1

/-- `LOSSLESS_TILE_MAGIC_NUMBER = -2` from the source. -/
def LOSSLESS_TILE_MAGIC_NUMBER : ℚ := -2

/-- `TILE_VERSION = 2` from the source. -/
def TILE_VERSION : Nat := 2

/-- A structured view of the blob produced by `Tile.compress_data`; its byte
rendering is `blobBytes`. The three constructors are the three return paths
of `compress_data`. -/
inductive TileBlob (γ : Type) where
  | nanTile : TileBlob γ
  | lossless (resample_resolution : Nat) (stats : ℚ × ℚ × ℚ × ℚ) (payload : γ) : TileBlob γ
  | lossy (resample_resolution : Nat) (nan_mask_length : Nat) (max_error : ℚ)
      (stats : ℚ × ℚ × ℚ × ℚ) (mask : γ) (payload : γ) : TileBlob γ

/-- Model of `Tile.compress_data(source_values, tile_compressor,
resample_resolution, added_compression_error)` for a tile of size `T`. -/
def compress_data (T : Nat) (tc : TileCompressorM γ) (source_values : Mat)
    (resample_resolution : Nat) (added_compression_error : ℚ) : TileBlob γ :=
  if matAllNaN source_values then
    TileBlob.nanTile
  else
    let tile_data := padTile T source_values
    let nan_mask := nanMask tile_data
    let stats := (nanminM source_values, nanmaxM source_values,
                  nanmeanM source_values, nanvarM source_values)
    if tc.compress_lossless then
      TileBlob.lossless resample_resolution stats (tc.losslessCodec.enc tile_data)
    else
      let tile_data0 := nanToNum tile_data
      let compressed_nan_mask := tc.maskCodec.enc nan_mask
      let compressed_tile_data := tc.lossyCodec.enc tile_data0
      let decompressed_tile_data := tc.lossyCodec.dec compressed_tile_data
      let errors := matSubAbsWindow decompressed_tile_data source_values
      let max_error := nanmaxInit errors 0 + added_compression_error
      TileBlob.lossy resample_resolution (tc.maskCodec.clen compressed_nan_mask)
        max_error stats compressed_nan_mask compressed_tile_data

/-- Model of `Tile.decompress`: returns the decoded `T × T` matrix and the
reported max compression error (0 for NaN and lossless tiles). -/
def decompress (T : Nat) (tc : TileCompressorM γ) : TileBlob γ → Mat × ℚ
  | TileBlob.nanTile => (allNaNTile T, 0)
  | TileBlob.lossless _ _ p => (tc.losslessCodec.dec p, 0)
  | TileBlob.lossy _ _ me _ mask p =>
      (matAdd (tc.lossyCodec.dec p) (tc.maskCodec.dec mask), me)

/-- The float64 field at byte offset 16 of the tile header: the reported max
error, or one of the sentinels `-1.0` (NAN_TILE) / `-2.0` (LOSSLESS_TILE). -/
def maxErrorField : TileBlob γ → ℚ
  | TileBlob.nanTile => NAN_TILE_MAGIC_NUMBER
  | TileBlob.lossless _ _ _ => LOSSLESS_TILE_MAGIC_NUMBER
  | TileBlob.lossy _ _ me _ _ _ => me

/-- Little-endian 4-byte rendering of a 32-bit unsigned integer, modelling
`struct.pack("<I", n)`. -/
def u32le (n : Nat) : Bytes :=
  [n % 256, n / 256 % 256, n / 2 ^ 16 % 256, n / 2 ^ 24 % 256]

/-- Binary digit count of a natural number, via structural fuel (so that it
reduces in the kernel). -/
def bitLenFuel : Nat → Nat → Nat
  | 0, _ => 0
  | f + 1, n => if n = 0 then 0 else bitLenFuel f (n / 2) + 1

/-- Number of binary digits of `n` (`0` for `0`). -/
def bitLen (n : Nat) : Nat := bitLenFuel n n

/-- IEEE 754 binary64 bit pattern of the rational `p / q` (`q > 0`), in exact
integer arithmetic. The exponent is `⌊log2 |p/q|⌋`; the mantissa is exact on
exactly representable values (all values the theorems evaluate this at) and
truncated otherwise. -/
def f64bitsND (p : ℤ) (q : ℕ) : Nat :=
  if p = 0 then 0
  else
    let s : Nat := if p < 0 then 1 else 0
    let pa : Nat := p.natAbs
    let e0 : ℤ := (bitLen pa : ℤ) - (bitLen q : ℤ)
    let le0 : Bool := if 0 ≤ e0 then 2 ^ e0.toNat * q ≤ pa else q ≤ pa * 2 ^ (-e0).toNat
    let e : ℤ := if le0 then e0 else e0 - 1
    if 1024 ≤ e then s * 2 ^ 63 + 2047 * 2 ^ 52
    else if e < -1022 then s * 2 ^ 63 + pa * 2 ^ 1074 / q
    else
      let mant : Nat :=
        if 0 ≤ 52 - e then pa * 2 ^ (52 - e).toNat / q else pa / (q * 2 ^ (e - 52).toNat)
      s * 2 ^ 63 + (e + 1023).toNat * 2 ^ 52 + (mant - 2 ^ 52)

/-- IEEE 754 binary64 bit pattern of a rational, modelling the float64 value
packed by `struct.pack("<d", x)`. -/
def f64bits (x : ℚ) : Nat := f64bitsND x.num x.den

/-- Little-endian 8-byte rendering of a float64, modelling `struct.pack("<d", x)`. -/
def f64le (x : ℚ) : Bytes :=
  (List.range 8).map (fun i => f64bits x / 2 ^ (8 * i) % 256)

/-- `TILE_FORMAT_MAGIC_BYTES = "lexc".encode("utf-8")`. -/
def TILE_FORMAT_MAGIC_BYTES : Bytes := [0x6c, 0x65, 0x78, 0x63]

/-- Model of `Tile.get_tile_metadata_bytes`. -/
def get_tile_metadata_bytes (resample_resolution nan_mask_length : Nat)
    (max_error_or_magic_number : ℚ) : Bytes :=
  TILE_FORMAT_MAGIC_BYTES ++ u32le TILE_VERSION ++ u32le resample_resolution ++
    u32le nan_mask_length ++ f64le max_error_or_magic_number

/-- The statistics block of `compress_data`: four packed little-endian float64. -/
def statsBytes (s : ℚ × ℚ × ℚ × ℚ) : Bytes :=
  f64le s.1 ++ f64le s.2.1 ++ f64le s.2.2.1 ++ f64le s.2.2.2

/-- Byte rendering of a structured tile blob, given a byte rendering
`payloadBytes` of codec payloads; follows the concatenations performed on the
three return paths of `Tile.compress_data`. -/
def blobBytes (payloadBytes : γ → Bytes) : TileBlob γ → Bytes
  | TileBlob.nanTile => get_tile_metadata_bytes 0 0 NAN_TILE_MAGIC_NUMBER
  | TileBlob.lossless r s p =>
      get_tile_metadata_bytes r 0 LOSSLESS_TILE_MAGIC_NUMBER ++ statsBytes s ++ payloadBytes p
  | TileBlob.lossy r ml me s m p =>
      get_tile_metadata_bytes r ml me ++ statsBytes s ++ payloadBytes m ++ payloadBytes p

/-- Model of the assignment `self.compress_lossless = widget_mode` in
`TileServer.__init__`. -/
def tileServerCompressLossless (widget_mode : Bool) : Bool := widget_mode

lemma rangeMap_getD {α : Type} (n i : Nat) (f : Nat → α) (d : α) :
    ((List.range n).map f).getD i d = if i < n then f i else d := by
  by_cases h : i < n
  · rw [List.getD_eq_getElem ((List.range n).map f) d (by simpa using h)]
    simp [h]
  · rw [List.getD_eq_default, if_neg h]
    simpa using Nat.le_of_not_lt h

lemma cell_padTile (T : Nat) (w : Mat) (i j : Nat) (hi : i < T) (hj : j < T) :
    cell (padTile T w) i j = cell w i j := by
  unfold cell padTile
  rw [rangeMap_getD, if_pos hi, rangeMap_getD, if_pos hj]

lemma padTile_shape (T : Nat) (w : Mat) : HasShape (padTile T w) T T := by
  constructor
  · simp [padTile]
  · intro r hr
    simp only [padTile, List.mem_map] at hr
    obtain ⟨i, -, rfl⟩ := hr
    simp

lemma cell_outside {w : Mat} {Sh Sw : Nat} (hsh : HasShape w Sh Sw) (i j : Nat)
    (h : Sh ≤ i ∨ Sw ≤ j) : cell w i j = none := by
  unfold cell
  by_cases hi : i < w.length
  · have hrow : (w.getD i []).length = Sw := by
      rw [List.getD_eq_getElem w [] hi]
      exact hsh.2 _ (List.getElem_mem hi)
    rcases h with h | h
    · exact absurd (hsh.1 ▸ hi) (Nat.not_lt.mpr h)
    · exact List.getD_eq_default _ none (hrow ▸ h)
  · rw [List.getD_eq_default w [] (Nat.le_of_not_lt hi)]
    rfl

lemma cell_nanMask (m : Mat) (i j : Nat) :
    cell (nanMask m) i j = if (cell m i j).isNone then none else some 0 := by
  unfold cell nanMask
  by_cases hi : i < m.length
  · rw [List.getD_eq_getElem (m.map _) [] (by simpa using hi), List.getElem_map,
      List.getD_eq_getElem m [] hi]
    by_cases hj : j < m[i].length
    · rw [List.getD_eq_getElem (m[i].map _) none (by simpa using hj), List.getElem_map,
        List.getD_eq_getElem m[i] none hj]
    · rw [List.getD_eq_default _ none (by simpa using Nat.le_of_not_lt hj),
        List.getD_eq_default _ none (Nat.le_of_not_lt hj)]
      rfl
  · rw [List.getD_eq_default (m.map _) [] (by simpa using Nat.le_of_not_lt hi),
      List.getD_eq_default m [] (Nat.le_of_not_lt hi)]
    rfl

lemma cell_matAdd (a b : Mat) (i j : Nat) (hi : i < a.length)
    (hj : j < (a.getD i []).length) :
    cell (matAdd a b) i j =
      match cell a i j, cell b i j with
      | some x, some y => some (x + y)
      | _, _ => none := by
  unfold cell matAdd
  rw [rangeMap_getD, if_pos hi, rangeMap_getD, if_pos hj]

lemma matAdd_shape {a : Mat} (b : Mat) {T : Nat} (ha : HasShape a T T) :
    HasShape (matAdd a b) T T := by
  constructor
  · simp [matAdd, ha.1]
  · intro r hr
    simp only [matAdd, List.mem_map, List.mem_range] at hr
    obtain ⟨i, hi, rfl⟩ := hr
    rw [ha.1] at hi
    rw [List.length_map, List.length_range,
      List.getD_eq_getElem a [] (by rw [ha.1]; exact hi)]
    exact ha.2 _ (List.getElem_mem _)

lemma cell_matSubAbsWindow (d w : Mat) (i j : Nat) (hi : i < w.length)
    (hj : j < (w.getD i []).length) :
    cell (matSubAbsWindow d w) i j =
      match cell d i j, cell w i j with
      | some a, some b => some |a - b|
      | _, _ => none := by
  unfold cell matSubAbsWindow
  rw [rangeMap_getD, if_pos hi, rangeMap_getD, if_pos hj]

lemma cell_some_bounds {m : Mat} {i j : Nat} {q : ℚ} (h : cell m i j = some q) :
    i < m.length ∧ j < (m.getD i []).length := by
  unfold cell at h
  by_cases hi : i < m.length
  · refine ⟨hi, ?_⟩
    by_cases hj : j < (m.getD i []).length
    · exact hj
    · rw [List.getD_eq_default _ none (Nat.le_of_not_lt hj)] at h
      exact absurd h (by simp)
  · rw [List.getD_eq_default m [] (Nat.le_of_not_lt hi)] at h
    exact absurd h (by simp)

lemma matAllNaN_false_of_cell {m : Mat} {i j : Nat} {q : ℚ} (h : cell m i j = some q) :
    matAllNaN m = false := by
  obtain ⟨hi, hj⟩ := cell_some_bounds h
  unfold cell at h
  rw [List.getD_eq_getElem m [] hi] at h hj
  rw [List.getD_eq_getElem m[i] none hj] at h
  by_contra hc
  have hall := eq_true_of_ne_false hc
  simp only [matAllNaN, List.all_eq_true] at hall
  have := hall m[i] (List.getElem_mem hi) m[i][j] (List.getElem_mem hj)
  rw [h] at this
  simp at this

lemma padTile_of_allNaN (T : Nat) {w : Mat} (h : matAllNaN w = true) :
    padTile T w = allNaNTile T := by
  simp only [matAllNaN, List.all_eq_true] at h
  rw [allNaNTile, List.eq_replicate_iff]
  refine ⟨by simp [padTile], ?_⟩
  intro r hr
  simp only [padTile, List.mem_map] at hr
  obtain ⟨i, -, rfl⟩ := hr
  rw [List.eq_replicate_iff]
  refine ⟨by simp, ?_⟩
  intro v hv
  simp only [List.mem_map, List.mem_range] at hv
  obtain ⟨j, -, rfl⟩ := hv
  by_cases hi : i < w.length
  · rw [List.getD_eq_getElem w [] hi]
    by_cases hj : j < w[i].length
    · rw [List.getD_eq_getElem w[i] none hj]
      have := h w[i] (List.getElem_mem hi) w[i][j] (List.getElem_mem hj)
      exact Option.eq_none_of_isNone this
    · exact List.getD_eq_default _ none (Nat.le_of_not_lt hj)
  · rw [List.getD_eq_default w [] (Nat.le_of_not_lt hi)]
    rfl

lemma mem_nanEntries_of_cell {m : Mat} {i j : Nat} {q : ℚ} (h : cell m i j = some q) :
    q ∈ nanEntries m := by
  obtain ⟨hi, hj⟩ := cell_some_bounds h
  unfold cell at h
  rw [List.getD_eq_getElem m [] hi] at h hj
  rw [List.getD_eq_getElem m[i] none hj] at h
  simp only [nanEntries, List.mem_flatMap]
  refine ⟨m[i], List.getElem_mem hi, ?_⟩
  rw [List.mem_filterMap]
  exact ⟨some q, h ▸ List.getElem_mem hj, rfl⟩

lemma le_foldl_max_init (l : List ℚ) (init : ℚ) : init ≤ l.foldl max init := by
  induction l generalizing init with
  | nil => exact le_refl _
  | cons a t ih =>
      show init ≤ t.foldl max (max init a)
      exact le_trans (le_max_left init a) (ih (max init a))

lemma le_foldl_max (l : List ℚ) (init x : ℚ) (h : x ∈ l) : x ≤ l.foldl max init := by
  induction l generalizing init with
  | nil => cases h
  | cons a t ih =>
      rcases List.mem_cons.mp h with rfl | h
      · show x ≤ t.foldl max (max init x)
        exact le_trans (le_max_right init x) (le_foldl_max_init t (max init x))
      · exact ih (max init a) h

lemma compress_data_nan {γ : Type} (T : Nat) (tc : TileCompressorM γ) (w : Mat)
    (r : Nat) (ae : ℚ) (h : matAllNaN w = true) :
    compress_data T tc w r ae = TileBlob.nanTile := by
  simp [compress_data, h]

lemma compress_data_lossless {γ : Type} (T : Nat) (tc : TileCompressorM γ) (w : Mat)
    (r : Nat) (ae : ℚ) (hnn : matAllNaN w = false) (hl : tc.compress_lossless = true) :
    compress_data T tc w r ae =
      TileBlob.lossless r (nanminM w, nanmaxM w, nanmeanM w, nanvarM w)
        (tc.losslessCodec.enc (padTile T w)) := by
  simp [compress_data, hnn, hl]

lemma compress_data_lossy {γ : Type} (T : Nat) (tc : TileCompressorM γ) (w : Mat)
    (r : Nat) (ae : ℚ) (hnn : matAllNaN w = false) (hl : tc.compress_lossless = false) :
    compress_data T tc w r ae =
      TileBlob.lossy r (tc.maskCodec.clen (tc.maskCodec.enc (nanMask (padTile T w))))
        (nanmaxInit (matSubAbsWindow
            (tc.lossyCodec.dec (tc.lossyCodec.enc (nanToNum (padTile T w)))) w) 0 + ae)
        (nanminM w, nanmaxM w, nanmeanM w, nanvarM w)
        (tc.maskCodec.enc (nanMask (padTile T w)))
        (tc.lossyCodec.enc (nanToNum (padTile T w))) := by
  simp [compress_data, hnn, hl]

/-- C5: a window of only NaN values compresses to exactly the 24 header bytes
`"lexc"`, uint32 version 2, uint32 0 (resample resolution), uint32 0 (NaN mask
length) and float64 `-1.0`, and decompressing that blob yields the all-NaN
`T × T` matrix with reported error 0. -/
theorem nan_window_compresses_to_24_byte_header {γ : Type} (T : Nat)
    (tc : TileCompressorM γ) (payloadBytes : γ → Bytes) (w : Mat) (r : Nat) (ae : ℚ)
    (h : matAllNaN w = true) :
    blobBytes payloadBytes (compress_data T tc w r ae) =
      [108, 101, 120, 99, 2, 0, 0, 0, 0, 0, 0, 0, 0, 0, 0, 0,
       0, 0, 0, 0, 0, 0, 240, 191] ∧
    decompress T tc (compress_data T tc w r ae) = (allNaNTile T, 0) := by
  rw [compress_data_nan T tc w r ae h]
  constructor
  · show get_tile_metadata_bytes 0 0 NAN_TILE_MAGIC_NUMBER = _
    decide
  · rfl

theorem nan_window_compresses_to_24_byte_header_witness :
    matAllNaN [[(none : FVal)]] = true ∧
    blobBytes (fun _ : Mat => ([] : Bytes))
        (compress_data 2 ⟨false, ⟨id, id, fun _ => 0⟩, ⟨id, id, fun _ => 0⟩,
          ⟨id, id, fun _ => 0⟩⟩ [[(none : FVal)]] 1 0) =
      [108, 101, 120, 99, 2, 0, 0, 0, 0, 0, 0, 0, 0, 0, 0, 0,
       0, 0, 0, 0, 0, 0, 240, 191] :=
  ⟨by decide, (nan_window_compresses_to_24_byte_header 2 _ _ _ 1 0 (by decide)).1⟩

/-- C10: with the compressor configured as `TileServer.__init__` configures it
in widget mode (`compress_lossless = widget_mode = True`), every blob
`compress_data` can produce carries one of the sentinel error values `-1.0`
(NAN_TILE) or `-2.0` (LOSSLESS_TILE) — never a positive compression error —
and, provided the lossless codec roundtrips on the generated `T × T` matrix,
decompression reproduces that matrix exactly with reported error 0. -/
theorem widget_mode_tiles_are_lossless {γ : Type} (T : Nat) (tc : TileCompressorM γ)
    (w : Mat) (r : Nat) (ae : ℚ)
    (hw : tc.compress_lossless = tileServerCompressLossless true)
    (hrt : tc.losslessCodec.dec (tc.losslessCodec.enc (padTile T w)) = padTile T w) :
    (maxErrorField (compress_data T tc w r ae) = NAN_TILE_MAGIC_NUMBER ∨
      maxErrorField (compress_data T tc w r ae) = LOSSLESS_TILE_MAGIC_NUMBER) ∧
    decompress T tc (compress_data T tc w r ae) = (padTile T w, 0) := by
  cases hnn : matAllNaN w with
  | true =>
      rw [compress_data_nan T tc w r ae hnn]
      exact ⟨Or.inl rfl, by rw [padTile_of_allNaN T hnn]; rfl⟩
  | false =>
      rw [compress_data_lossless T tc w r ae hnn hw]
      refine ⟨Or.inr rfl, ?_⟩
      show (tc.losslessCodec.dec (tc.losslessCodec.enc (padTile T w)), 0) = _
      rw [hrt]

theorem widget_mode_tiles_are_lossless_witness :
    maxErrorField (compress_data 2
        ⟨tileServerCompressLossless true, ⟨id, id, fun _ => 0⟩, ⟨id, id, fun _ => 0⟩,
          ⟨id, id, fun _ => 0⟩⟩ [[some 1, none], [none, some 2]] 1 0) =
      LOSSLESS_TILE_MAGIC_NUMBER ∧
    decompress 2 ⟨tileServerCompressLossless true, ⟨id, id, fun _ => 0⟩,
        ⟨id, id, fun _ => 0⟩, ⟨id, id, fun _ => 0⟩⟩
      (compress_data 2 ⟨tileServerCompressLossless true, ⟨id, id, fun _ => 0⟩,
        ⟨id, id, fun _ => 0⟩, ⟨id, id, fun _ => 0⟩⟩ [[some 1, none], [none, some 2]] 1 0) =
      (padTile 2 [[some 1, none], [none, some 2]], 0) := by
  have h := widget_mode_tiles_are_lossless (γ := Mat) 2
    ⟨tileServerCompressLossless true, ⟨id, id, fun _ => 0⟩, ⟨id, id, fun _ => 0⟩,
      ⟨id, id, fun _ => 0⟩⟩ [[some 1, none], [none, some 2]] 1 0 rfl rfl
  refine ⟨?_, h.2⟩
  rcases h.1 with h1 | h1
  · rw [compress_data_lossless 2 _ _ 1 0 (by decide) rfl] at h1
    exact absurd h1 (by decide)
  · exact h1

lemma shape_row_len {m : Mat} {a b i : Nat} (h : HasShape m a b) (hi : i < a) :
    (m.getD i []).length = b := by
  rw [List.getD_eq_getElem m [] (h.1 ▸ hi)]
  exact h.2 _ (List.getElem_mem _)

/-- C2: compressing then decompressing a window with at least one non-NaN value
yields a `T × T` matrix that is NaN exactly where the window is NaN, and NaN on
the whole padding region outside the window — in both lossless and lossy mode,
given the codec contracts (lossless and mask codecs roundtrip; the lossy body
codec returns a `T × T` NaN-free matrix for NaN-free input). -/
theorem roundtrip_preserves_nan_structure {γ : Type} (T Sh Sw : Nat)
    (tc : TileCompressorM γ) (w : Mat) (r : Nat) (ae : ℚ)
    (hsh : HasShape w Sh Sw) (hSh : Sh ≤ T) (hSw : Sw ≤ T)
    (hnn : matAllNaN w = false)
    (hlossrt : tc.losslessCodec.dec (tc.losslessCodec.enc (padTile T w)) = padTile T w)
    (hmaskrt : tc.maskCodec.dec (tc.maskCodec.enc (nanMask (padTile T w))) =
      nanMask (padTile T w))
    (hbodyshape : HasShape (tc.lossyCodec.dec (tc.lossyCodec.enc (nanToNum (padTile T w)))) T T)
    (hbodyfin : ∀ i j, i < T → j < T →
      (cell (tc.lossyCodec.dec (tc.lossyCodec.enc (nanToNum (padTile T w)))) i j).isSome = true) :
    HasShape (decompress T tc (compress_data T tc w r ae)).1 T T ∧
    (∀ i j, i < Sh → j < Sw →
      (cell (decompress T tc (compress_data T tc w r ae)).1 i j).isNone =
        (cell w i j).isNone) ∧
    (∀ i j, i < T → j < T → (Sh ≤ i ∨ Sw ≤ j) →
      cell (decompress T tc (compress_data T tc w r ae)).1 i j = none) := by
  cases hl : tc.compress_lossless with
  | true =>
      rw [compress_data_lossless T tc w r ae hnn hl]
      simp only [decompress]
      rw [hlossrt]
      refine ⟨padTile_shape T w, ?_, ?_⟩
      · intro i j hi hj
        rw [cell_padTile T w i j (lt_of_lt_of_le hi hSh) (lt_of_lt_of_le hj hSw)]
      · intro i j hi hj hout
        rw [cell_padTile T w i j hi hj]
        exact cell_outside hsh i j hout
  | false =>
      rw [compress_data_lossy T tc w r ae hnn hl]
      simp only [decompress]
      rw [hmaskrt]
      set body := tc.lossyCodec.dec (tc.lossyCodec.enc (nanToNum (padTile T w))) with hbody
      have hcell : ∀ i j, i < T → j < T →
          cell (matAdd body (nanMask (padTile T w))) i j =
            match cell body i j, cell (nanMask (padTile T w)) i j with
            | some x, some y => some (x + y)
            | _, _ => none := by
        intro i j hi hj
        exact cell_matAdd body _ i j (hbodyshape.1 ▸ hi) ((shape_row_len hbodyshape hi) ▸ hj)
      refine ⟨matAdd_shape _ hbodyshape, ?_, ?_⟩
      · intro i j hi hj
        have hiT := lt_of_lt_of_le hi hSh
        have hjT := lt_of_lt_of_le hj hSw
        rw [hcell i j hiT hjT, cell_nanMask, cell_padTile T w i j hiT hjT]
        obtain ⟨x, hx⟩ := Option.isSome_iff_exists.mp (hbodyfin i j hiT hjT)
        rw [hx]
        cases hwc : (cell w i j).isNone with
        | true => simp [hwc]
        | false => simp [hwc]
      · intro i j hi hj hout
        rw [hcell i j hi hj, cell_nanMask, cell_padTile T w i j hi hj,
          cell_outside hsh i j hout]
        obtain ⟨x, hx⟩ := Option.isSome_iff_exists.mp (hbodyfin i j hi hj)
        rw [hx]
        rfl

theorem roundtrip_preserves_nan_structure_witness :
    HasShape [[some (1 : ℚ), none], [none, some 2]] 2 2 ∧
    (cell (decompress 2 ⟨false, ⟨id, id, fun _ => 0⟩, ⟨id, id, fun _ => 0⟩,
        ⟨id, id, fun _ => 0⟩⟩ (compress_data 2 ⟨false, ⟨id, id, fun _ => 0⟩,
        ⟨id, id, fun _ => 0⟩, ⟨id, id, fun _ => 0⟩⟩
        [[some (1 : ℚ), none], [none, some 2]] 1 0)).1 0 1).isNone =
      (cell [[some (1 : ℚ), none], [none, some 2]] 0 1).isNone := by
  refine ⟨⟨by decide, by decide⟩, ?_⟩
  exact (roundtrip_preserves_nan_structure (γ := Mat) 2 2 2 _
    [[some (1 : ℚ), none], [none, some 2]] 1 0
    ⟨by decide, by decide⟩ (le_refl 2) (le_refl 2) (by decide) rfl rfl
    ⟨by decide, by decide⟩
    (by intro i j hi hj; interval_cases i <;> interval_cases j <;> decide)).2.1
    0 1 (by decide) (by decide)

/-- C3: in lossy mode, at every non-NaN window pixel the decoded value differs
from the original by at most the reported max error, which equals the maximum
of `|decoded − original|` over non-NaN window pixels plus the (nonnegative)
`added_compression_error` passed to the encode call. -/
theorem lossy_error_bounded_by_reported {γ : Type} (T Sh Sw : Nat)
    (tc : TileCompressorM γ) (w : Mat) (r : Nat) (ae : ℚ)
    (hl : tc.compress_lossless = false)
    (hsh : HasShape w Sh Sw) (hSh : Sh ≤ T) (hSw : Sw ≤ T)
    (hnn : matAllNaN w = false) (hae : 0 ≤ ae)
    (hmaskrt : tc.maskCodec.dec (tc.maskCodec.enc (nanMask (padTile T w))) =
      nanMask (padTile T w))
    (hbodyshape : HasShape (tc.lossyCodec.dec (tc.lossyCodec.enc (nanToNum (padTile T w)))) T T)
    (hbodyfin : ∀ i j, i < T → j < T →
      (cell (tc.lossyCodec.dec (tc.lossyCodec.enc (nanToNum (padTile T w)))) i j).isSome = true) :
    (decompress T tc (compress_data T tc w r ae)).2 =
      nanmaxInit (matSubAbsWindow
        (tc.lossyCodec.dec (tc.lossyCodec.enc (nanToNum (padTile T w)))) w) 0 + ae ∧
    ∀ i j q, i < Sh → j < Sw → cell w i j = some q →
      ∃ p, cell (decompress T tc (compress_data T tc w r ae)).1 i j = some p ∧
        |p - q| ≤ (decompress T tc (compress_data T tc w r ae)).2 := by
  rw [compress_data_lossy T tc w r ae hnn hl]
  simp only [decompress]
  rw [hmaskrt]
  set body := tc.lossyCodec.dec (tc.lossyCodec.enc (nanToNum (padTile T w))) with hbody
  refine ⟨trivial, ?_⟩
  intro i j q hi hj hq
  have hiT := lt_of_lt_of_le hi hSh
  have hjT := lt_of_lt_of_le hj hSw
  obtain ⟨x, hx⟩ := Option.isSome_iff_exists.mp (hbodyfin i j hiT hjT)
  have hmaskcell : cell (nanMask (padTile T w)) i j = some 0 := by
    rw [cell_nanMask, cell_padTile T w i j hiT hjT, hq]
    rfl
  have hcell : cell (matAdd body (nanMask (padTile T w))) i j = some (x + 0) := by
    rw [cell_matAdd body _ i j (hbodyshape.1 ▸ hiT) ((shape_row_len hbodyshape hiT) ▸ hjT),
      hx, hmaskcell]
  refine ⟨x + 0, hcell, ?_⟩
  have herrcell : cell (matSubAbsWindow body w) i j = some |x - q| := by
    rw [cell_matSubAbsWindow body w i j (hsh.1 ▸ hi) ((shape_row_len hsh hi) ▸ hj), hx, hq]
  have hmem := mem_nanEntries_of_cell herrcell
  have hle : |x - q| ≤ nanmaxInit (matSubAbsWindow body w) 0 :=
    le_foldl_max _ 0 _ hmem
  have : |x + 0 - q| = |x - q| := by ring_nf
  rw [this]
  exact le_trans hle (le_add_of_nonneg_right hae)

theorem lossy_error_bounded_by_reported_witness :
    ∃ p, cell (decompress 2 ⟨false, ⟨id, id, fun _ => 0⟩, ⟨id, id, fun _ => 0⟩,
        ⟨id, id, fun _ => 0⟩⟩ (compress_data 2 ⟨false, ⟨id, id, fun _ => 0⟩,
        ⟨id, id, fun _ => 0⟩, ⟨id, id, fun _ => 0⟩⟩
        [[some (1 : ℚ), none], [none, some 2]] 1 0)).1 0 0 = some p ∧
      |p - 1| ≤ (decompress 2 ⟨false, ⟨id, id, fun _ => 0⟩, ⟨id, id, fun _ => 0⟩,
        ⟨id, id, fun _ => 0⟩⟩ (compress_data 2 ⟨false, ⟨id, id, fun _ => 0⟩,
        ⟨id, id, fun _ => 0⟩, ⟨id, id, fun _ => 0⟩⟩
        [[some (1 : ℚ), none], [none, some 2]] 1 0)).2 :=
  (lossy_error_bounded_by_reported (γ := Mat) 2 2 2 _
    [[some (1 : ℚ), none], [none, some 2]] 1 0 rfl
    ⟨by decide, by decide⟩ (le_refl 2) (le_refl 2) (by decide) (le_refl 0) rfl
    ⟨by decide, by decide⟩
    (by intro i j hi hj; interval_cases i <;> interval_cases j <;> decide)).2
    0 0 1 (by decide) (by decide) (by rfl)

/-- `LONGITUDE_DIMENSION_NAMES = ["longitude","lon"]` from the source. -/
def LONGITUDE_DIMENSION_NAMES : List String := ["longitude", "lon"]

/-- `LATITUDE_DIMENSION_NAMES = ["latitude","lat"]` from the source. -/
def LATITUDE_DIMENSION_NAMES : List String := ["latitude", "lat"]

/-- An abstract labelled dataset (`xr.Dataset` / `xr.DataArray`): the ordered
dimension names and the label values of each dimension. The cell data is a
function of the labels and hence invariant under both `transpose` and
`sortby`, so those operations act on this metadata. -/
structure LDataset where
  dims : List String
  coords : String → List ℚ

/-- Model of `ds.transpose(dims[0], dims[2], dims[1])`: swaps the last two
dimension names; coordinates are untouched. -/
def transposeSwapLast (ds : LDataset) : LDataset :=
  { ds with dims := [ds.dims.getD 0 "", ds.dims.getD 2 "", ds.dims.getD 1 ""] }

/-- Model of `ds.sortby(dim, ascending=False)`: sorts that dimension's label
values descending. -/
def sortbyDescending (ds : LDataset) (dim : String) : LDataset :=
  { ds with coords := fun d =>
      if d = dim then List.insertionSort (fun a b : ℚ => b ≤ a) (ds.coords d)
      else ds.coords d }

/-- Model of `patch_dataset`. Note that `dims` is captured before the
transpose, so the latitude check in the second branch consults the original
second dimension name, exactly as the source does; the endpoint comparison
`lat_values[0] < lat_values[len(lat_values) - 1]` is transcribed directly. -/
def patch_dataset (ds : LDataset) : LDataset :=
  let dims := ds.dims
  let ds1 :=
    if dims.getD 1 "" ∈ LONGITUDE_DIMENSION_NAMES ∧ dims.getD 2 "" ∈ LATITUDE_DIMENSION_NAMES
    then transposeSwapLast ds else ds
  if dims.getD 1 "" ∈ LATITUDE_DIMENSION_NAMES then
    let lat_values := ds1.coords (dims.getD 1 "")
    if lat_values.getD 0 0 < lat_values.getD (lat_values.length - 1) 0 then
      sortbyDescending ds1 (dims.getD 1 "")
    else ds1
  else ds1

/-- An example dataset with xee-style `(time, lon, lat)` dimension order and
ascending latitude labels. -/
def xeeExampleDs : LDataset :=
  { dims := ["time", "lon", "lat"],
    coords := fun d => if d = "lat" then [1, 2] else [] }

/-- C8 counterexample: on a `(time, lon, lat)` dataset with ascending latitude
labels, `patch_dataset` swaps the last two dimensions but does NOT flip the
latitude to descending — the flip check reads the pre-transpose second
dimension name ("lon"), so the latitude labels stay ascending, contradicting
the claim that an ascending latitude is always reordered to descending. -/
theorem patch_dataset_ascending_lat_not_flipped :
    (patch_dataset xeeExampleDs).dims = ["time", "lat", "lon"] ∧
    (patch_dataset xeeExampleDs).coords "lat" = [1, 2] ∧
    ¬ List.Sorted (fun a b : ℚ => b ≤ a) ((patch_dataset xeeExampleDs).coords "lat") := by
  refine ⟨by decide, by decide, ?_⟩
  intro h
  have h12 : (patch_dataset xeeExampleDs).coords "lat" = [1, 2] := by decide
  rw [h12] at h
  have := List.rel_of_sorted_cons h 2 (by decide)
  exact absurd this (by decide)

lemma lon_not_lat {d : String} (h : d ∈ LONGITUDE_DIMENSION_NAMES) :
    d ∉ LATITUDE_DIMENSION_NAMES := by
  simp only [LONGITUDE_DIMENSION_NAMES, List.mem_cons, List.not_mem_nil, or_false] at h
  rcases h with rfl | rfl <;> decide

lemma lat_not_lon {d : String} (h : d ∈ LATITUDE_DIMENSION_NAMES) :
    d ∉ LONGITUDE_DIMENSION_NAMES := by
  simp only [LATITUDE_DIMENSION_NAMES, List.mem_cons, List.not_mem_nil, or_false] at h
  rcases h with rfl | rfl <;> decide

/-- C8 (amended): `patch_dataset` swaps the last two dimensions when the
second is a longitude name and the third a latitude name, leaving all label
values (including the still-ascending latitude) untouched; it sorts the
latitude labels descending only when the input's second dimension is a
latitude name whose first label is smaller than its last; any other dataset
is returned unchanged. -/
theorem patch_dataset_behavior (ds : LDataset) (d0 d1 d2 : String)
    (h : ds.dims = [d0, d1, d2]) :
    (d1 ∈ LONGITUDE_DIMENSION_NAMES → d2 ∈ LATITUDE_DIMENSION_NAMES →
      (patch_dataset ds).dims = [d0, d2, d1] ∧
      ∀ d, (patch_dataset ds).coords d = ds.coords d) ∧
    (d1 ∈ LATITUDE_DIMENSION_NAMES →
      (ds.coords d1).getD 0 0 < (ds.coords d1).getD ((ds.coords d1).length - 1) 0 →
      (patch_dataset ds).dims = ds.dims ∧
      List.Sorted (fun a b : ℚ => b ≤ a) ((patch_dataset ds).coords d1) ∧
      List.Perm ((patch_dataset ds).coords d1) (ds.coords d1)) ∧
    ((d1 ∉ LONGITUDE_DIMENSION_NAMES ∨ d2 ∉ LATITUDE_DIMENSION_NAMES) →
      (d1 ∉ LATITUDE_DIMENSION_NAMES ∨
        ¬ (ds.coords d1).getD 0 0 < (ds.coords d1).getD ((ds.coords d1).length - 1) 0) →
      patch_dataset ds = ds) := by
  have hd0 : ds.dims.getD 0 "" = d0 := by rw [h]; rfl
  have hd1 : ds.dims.getD 1 "" = d1 := by rw [h]; rfl
  have hd2 : ds.dims.getD 2 "" = d2 := by rw [h]; rfl
  haveI htot : IsTotal ℚ (fun a b : ℚ => b ≤ a) := ⟨fun a b => le_total b a⟩
  haveI htrans : IsTrans ℚ (fun a b : ℚ => b ≤ a) := ⟨fun _ _ _ h1 h2 => le_trans h2 h1⟩
  refine ⟨?_, ?_, ?_⟩
  · intro h1 h2
    have hnotlat : d1 ∉ LATITUDE_DIMENSION_NAMES := lon_not_lat h1
    simp only [patch_dataset, hd1, hd2]
    rw [if_pos (show d1 ∈ LONGITUDE_DIMENSION_NAMES ∧ d2 ∈ LATITUDE_DIMENSION_NAMES from
      ⟨h1, h2⟩), if_neg hnotlat]
    refine ⟨?_, fun d => rfl⟩
    show [ds.dims.getD 0 "", ds.dims.getD 2 "", ds.dims.getD 1 ""] = [d0, d2, d1]
    rw [hd0, hd1, hd2]
  · intro h1 hlt
    have hnotlon : d1 ∉ LONGITUDE_DIMENSION_NAMES := lat_not_lon h1
    simp only [patch_dataset, hd1, hd2]
    rw [if_neg (fun hc : d1 ∈ LONGITUDE_DIMENSION_NAMES ∧ d2 ∈ LATITUDE_DIMENSION_NAMES =>
      hnotlon hc.1), if_pos h1, if_pos hlt]
    refine ⟨rfl, ?_, ?_⟩
    · show List.Sorted _ (if d1 = d1 then _ else _)
      rw [if_pos rfl]
      exact List.sorted_insertionSort _ _
    · show List.Perm (if d1 = d1 then _ else _) _
      rw [if_pos rfl]
      exact List.perm_insertionSort _ _
  · intro hA hB
    have hfst : ¬ (d1 ∈ LONGITUDE_DIMENSION_NAMES ∧ d2 ∈ LATITUDE_DIMENSION_NAMES) := by
      intro hc
      rcases hA with hA | hA
      · exact hA hc.1
      · exact hA hc.2
    simp only [patch_dataset, hd1, hd2]
    rw [if_neg hfst]
    rcases hB with hB | hB
    · rw [if_neg hB]
    · by_cases hl : d1 ∈ LATITUDE_DIMENSION_NAMES
      · rw [if_pos hl, if_neg hB]
      · rw [if_neg hl]

/-- An example dataset whose second dimension is latitude with ascending labels. -/
def latExampleDs : LDataset :=
  { dims := ["time", "lat", "lon"],
    coords := fun d => if d = "lat" then [1, 2] else [] }

theorem patch_dataset_behavior_witness :
    (patch_dataset latExampleDs).dims = ["time", "lat", "lon"] ∧
    List.Sorted (fun a b : ℚ => b ≤ a) ((patch_dataset latExampleDs).coords "lat") := by
  have h := (patch_dataset_behavior latExampleDs "time" "lat" "lon" rfl).2.1
    (by decide) (by decide)
  exact ⟨h.1.trans rfl, h.2.1⟩

/-- A Python slice with explicit integer endpoints (`slice(start, stop)`). -/
structure PySlice where
  start : Int
  stop : Int
deriving DecidableEq

/-- One axis of a `__getitem__` argument: a slice or a single integer index. -/
inductive SliceArg where
  | sl (s : PySlice) : SliceArg
  | idx (i : Int) : SliceArg

/-- A chunked backing array (an `xr.DataArray` with dask chunks): the cell
values as a total function on integer coordinates, the shape `(Nz, Ny, Nx)`,
and the native chunk sizes along each axis. -/
structure ChunkedSource (α : Type) where
  A : Int → Int → Int → α
  Nz : Nat
  Ny : Nat
  Nx : Nat
  zChunks : List Nat
  yChunks : List Nat
  xChunks : List Nat

/-- Sum of the first `i` chunk sizes. -/
def psum (c : List Nat) (i : Nat) : Nat := (c.take i).sum

/-- Model of `np.append(np.array([0]), np.cumsum(chunks))`: the prefix sums
`0, c0, c0+c1, …` of the chunk sizes. -/
def chunkBounds (chunks : List Nat) : List Int :=
  (List.range (chunks.length + 1)).map (fun i => (psum chunks i : Int))

/-- Model of `np.searchsorted(a, v, side="right")` on a sorted array: the
number of entries `≤ v`. -/
def searchsortedRight (a : List Int) (v : Int) : Nat :=
  a.countP (fun el => decide (el ≤ v))

/-- The chunk index along one axis holding coordinate `v`: the
`np.searchsorted(chunk_indices, v, side="right") - 1` computation used by
`find_affected_chunks`. -/
def chunkIndexOf (chunks : List Nat) (v : Int) : Int :=
  (searchsortedRight (chunkBounds chunks) v : Int) - 1

/-- Python `range(a, b + 1)` (the inclusive chunk index range) as a list. -/
def intRangeIncl (a b : Int) : List Int :=
  (List.range (b + 1 - a).toNat).map (fun i : Nat => a + (i : Int))

/-- Model of `DataSourceProxy.find_affected_chunks`: the Cartesian product of
the inclusive per-axis chunk index ranges, as `(z, y, x)` triples. -/
def find_affected_chunks (src : ChunkedSource α) (x y z : PySlice) :
    List (Int × Int × Int) :=
  let x_chunk_start := chunkIndexOf src.xChunks x.start
  let x_chunk_end := chunkIndexOf src.xChunks (x.stop - 1)
  let y_chunk_start := chunkIndexOf src.yChunks y.start
  let y_chunk_end := chunkIndexOf src.yChunks (y.stop - 1)
  let z_chunk_start := chunkIndexOf src.zChunks z.start
  let z_chunk_end := chunkIndexOf src.zChunks (z.stop - 1)
  (intRangeIncl z_chunk_start z_chunk_end).flatMap (fun iz =>
    (intRangeIncl y_chunk_start y_chunk_end).flatMap (fun iy =>
      (intRangeIncl x_chunk_start x_chunk_end).map (fun ix => (iz, iy, ix))))

/-- Entry `i` of the per-axis chunk boundary array (used with indices in
`0 .. len`). -/
def boundAt (chunks : List Nat) (i : Int) : Int :=
  (chunkBounds chunks).getD i.toNat 0

/-- Model of `DataSourceProxy.get_chunk_slices`: the `(z, y, x)` extents of
chunk `(chunk_iz, chunk_iy, chunk_ix)`. -/
def get_chunk_slices (src : ChunkedSource α) (chunk_ix chunk_iy chunk_iz : Int) :
    PySlice × PySlice × PySlice :=
  (⟨boundAt src.zChunks chunk_iz, boundAt src.zChunks (chunk_iz + 1)⟩,
   ⟨boundAt src.yChunks chunk_iy, boundAt src.yChunks (chunk_iy + 1)⟩,
   ⟨boundAt src.xChunks chunk_ix, boundAt src.xChunks (chunk_ix + 1)⟩)

/-- Model of `DataSourceProxy.get_chunk_slices_for_request`: the
chunk-relative source slices and the request-relative destination slices, in
`(z, y, x)` order. -/
def get_chunk_slices_for_request (src : ChunkedSource α)
    (chunk_ix chunk_iy chunk_iz : Int)
    (x_request_slice y_request_slice z_request_slice : PySlice) :
    (PySlice × PySlice × PySlice) × (PySlice × PySlice × PySlice) :=
  let chunk_slices := get_chunk_slices src chunk_ix chunk_iy chunk_iz
  let lower_x := max (x_request_slice.start - chunk_slices.2.2.start) 0
  let upper_x := min (x_request_slice.stop - chunk_slices.2.2.start)
    (chunk_slices.2.2.stop - chunk_slices.2.2.start)
  let lower_y := max (y_request_slice.start - chunk_slices.2.1.start) 0
  let upper_y := min (y_request_slice.stop - chunk_slices.2.1.start)
    (chunk_slices.2.1.stop - chunk_slices.2.1.start)
  let lower_z := max (z_request_slice.start - chunk_slices.1.start) 0
  let upper_z := min (z_request_slice.stop - chunk_slices.1.start)
    (chunk_slices.1.stop - chunk_slices.1.start)
  let chunk_copy_source_slices : PySlice × PySlice × PySlice :=
    (⟨lower_z, upper_z⟩, ⟨lower_y, upper_y⟩, ⟨lower_x, upper_x⟩)
  let t_lower_x := chunk_slices.2.2.start - x_request_slice.start + lower_x
  let t_upper_x := t_lower_x + upper_x - lower_x
  let t_lower_y := chunk_slices.2.1.start - y_request_slice.start + lower_y
  let t_upper_y := t_lower_y + upper_y - lower_y
  let t_lower_z := chunk_slices.1.start - z_request_slice.start + lower_z
  let t_upper_z := t_lower_z + upper_z - lower_z
  let request_copy_target_slices : PySlice × PySlice × PySlice :=
    (⟨t_lower_z, t_upper_z⟩, ⟨t_lower_y, t_upper_y⟩, ⟨t_lower_x, t_upper_x⟩)
  (chunk_copy_source_slices, request_copy_target_slices)

/-- Model of `DataSourceProxy.get_chunk`: the chunk cache is semantically
transparent, so the chunk contents equal `data_source[chunk_slices].values` —
the backing array shifted by the chunk origin. -/
def get_chunk (src : ChunkedSource α) (iz iy ix : Int) : Int → Int → Int → α :=
  fun a b c =>
    let s := get_chunk_slices src ix iy iz
    src.A (s.1.start + a) (s.2.1.start + b) (s.2.2.start + c)

/-- Model of `DataSourceProxy.validate_slice`: an integer index becomes the
slice `(i, i + 1)`; the slice is then clamped to `[0, shape[dim]]`. -/
def validate_slice (n : Nat) : SliceArg → PySlice
  | SliceArg.idx i => ⟨max i 0, min (i + 1) (n : Int)⟩
  | SliceArg.sl s => ⟨max s.start 0, min s.stop (n : Int)⟩

/-- The guard of one `np.copyto(output[target], chunk[source])` step: whether
output position `(i, j, k)` lies in the destination slices of chunk `c`. -/
def copyWrites (src : ChunkedSource α) (x y z : PySlice) (c : Int × Int × Int)
    (i j k : Int) : Prop :=
  (get_chunk_slices_for_request src c.2.2 c.2.1 c.1 x y z).2.1.start ≤ i ∧
  i < (get_chunk_slices_for_request src c.2.2 c.2.1 c.1 x y z).2.1.stop ∧
  (get_chunk_slices_for_request src c.2.2 c.2.1 c.1 x y z).2.2.1.start ≤ j ∧
  j < (get_chunk_slices_for_request src c.2.2 c.2.1 c.1 x y z).2.2.1.stop ∧
  (get_chunk_slices_for_request src c.2.2 c.2.1 c.1 x y z).2.2.2.start ≤ k ∧
  k < (get_chunk_slices_for_request src c.2.2 c.2.1 c.1 x y z).2.2.2.stop

instance (src : ChunkedSource α) (x y z : PySlice) (c : Int × Int × Int)
    (i j k : Int) : Decidable (copyWrites src x y z c i j k) := by
  unfold copyWrites
  infer_instance

/-- One `np.copyto(output[request_copy_target_slices],
chunk[chunk_copy_source_slices])` step of `__getitem__`: positions inside the
destination slices are overwritten with the corresponding chunk cells. The
output array is modelled as a partial function (`none` = never written). -/
def copyChunk (src : ChunkedSource α) (x y z : PySlice)
    (out : Int → Int → Int → Option α) (c : Int × Int × Int) :
    Int → Int → Int → Option α :=
  fun i j k =>
    if copyWrites src x y z c i j k then
      some (get_chunk src c.1 c.2.1 c.2.2
        ((get_chunk_slices_for_request src c.2.2 c.2.1 c.1 x y z).1.1.start +
          (i - (get_chunk_slices_for_request src c.2.2 c.2.1 c.1 x y z).2.1.start))
        ((get_chunk_slices_for_request src c.2.2 c.2.1 c.1 x y z).1.2.1.start +
          (j - (get_chunk_slices_for_request src c.2.2 c.2.1 c.1 x y z).2.2.1.start))
        ((get_chunk_slices_for_request src c.2.2 c.2.1 c.1 x y z).1.2.2.start +
          (k - (get_chunk_slices_for_request src c.2.2 c.2.1 c.1 x y z).2.2.2.start)))
    else out i j k

/-- Model of the chunked path of `DataSourceProxy.__getitem__` before the
final `np.squeeze`: validate the three slices, find the affected chunks, and
copy each chunk's intersection into the output, modelled as a partial
function on output coordinates. -/
def proxyGetRaw (src : ChunkedSource α) (az ay ax : SliceArg) :
    Int → Int → Int → Option α :=
  let z_request_slice := validate_slice src.Nz az
  let y_request_slice := validate_slice src.Ny ay
  let x_request_slice := validate_slice src.Nx ax
  let chunks := find_affected_chunks src x_request_slice y_request_slice z_request_slice
  chunks.foldl (copyChunk src x_request_slice y_request_slice z_request_slice)
    (fun _ _ _ => none)

/-- Model of `np.squeeze`: drops every axis of extent 1. -/
def squeezeShape (l : List Int) : List Int := l.filter (fun d => d ≠ 1)

/-- The shape of the array returned by the chunked path of
`DataSourceProxy.__getitem__`: the `np.ndarray((z_len, y_len, x_len))`
extents followed by `np.squeeze`. -/
def proxyGetShape (src : ChunkedSource α) (az ay ax : SliceArg) : List Int :=
  let z := validate_slice src.Nz az
  let y := validate_slice src.Ny ay
  let x := validate_slice src.Nx ax
  squeezeShape [z.stop - z.start, y.stop - y.start, x.stop - x.start]

lemma psum_zero (c : List Nat) : psum c 0 = 0 := rfl

lemma psum_length (c : List Nat) : psum c c.length = c.sum := by
  simp [psum]

lemma psum_succ (c : List Nat) (j : Nat) : psum c (j + 1) = psum c j + c.getD j 0 := by
  by_cases h : j < c.length
  · rw [psum, psum, List.take_succ, List.sum_append, List.getD_eq_getElem c 0 h]
    simp [List.getElem?_eq_getElem h]
  · rw [psum, psum, List.take_of_length_le (by omega), List.take_of_length_le (by omega),
      List.getD_eq_default c 0 (by omega)]
    omega

lemma psum_mono (c : List Nat) {i j : Nat} (h : i ≤ j) : psum c i ≤ psum c j := by
  induction j with
  | zero =>
      have hi : i = 0 := by omega
      subst hi
      exact le_refl _
  | succ j ih =>
      rcases Nat.lt_or_ge i (j + 1) with h' | h'
      · exact le_trans (ih (by omega)) (by rw [psum_succ]; omega)
      · have hi : i = j + 1 := by omega
        subst hi
        exact le_refl _

lemma countP_mono_pred (l : List Int) (p q : Int → Bool)
    (h : ∀ a ∈ l, p a = true → q a = true) : l.countP p ≤ l.countP q := by
  induction l with
  | nil => exact le_refl _
  | cons a t ih =>
      rw [List.countP_cons, List.countP_cons]
      have ht := ih (fun b hb => h b (List.mem_cons_of_mem a hb))
      by_cases ha : p a = true
      · rw [ha, h a (List.mem_cons_self a t) ha]
        omega
      · have : p a = false := by revert ha; cases p a <;> simp
        rw [this]
        cases q a <;> simp <;> omega

lemma countP_range_le (n t : Nat) (p : Nat → Bool) (h : ∀ i, i < n → (p i = true ↔ i ≤ t)) :
    (List.range n).countP p = min n (t + 1) := by
  induction n with
  | zero => rfl
  | succ n ih =>
      rw [List.range_succ, List.countP_append]
      have ihn := ih (fun i hi => h i (by omega))
      rcases Nat.lt_or_ge n (t + 1) with hn | hn
      · have hp : p n = true := (h n (by omega)).mpr (by omega)
        rw [List.countP_cons, List.countP_nil, hp, ihn, if_pos rfl]
        omega
      · have hp : p n = false := by
          have hiff := h n (by omega)
          revert hiff
          cases p n <;> simp <;> omega
        rw [List.countP_cons, List.countP_nil, hp, ihn, if_neg (by simp)]
        omega

lemma chunkIndexOf_spec (c : List Nat) (v : Int)
    (h0 : 0 ≤ v) (hN : v < (c.sum : Int)) :
    ∃ t : Nat, chunkIndexOf c v = (t : Int) ∧ t < c.length ∧
      (psum c t : Int) ≤ v ∧ v < (psum c (t + 1) : Int) := by
  let P : Nat → Prop := fun i => (psum c i : Int) ≤ v
  haveI hdec : DecidablePred P := fun i => Int.decLe _ _
  let t := Nat.findGreatest P c.length
  have hPt : (psum c t : Int) ≤ v := Nat.findGreatest_spec (P := P) (Nat.zero_le _)
    (show P 0 by
      show ((psum c 0 : Nat) : Int) ≤ v
      rw [psum_zero]
      exact h0)
  have htle : t ≤ c.length := Nat.findGreatest_le (P := P) c.length
  have htlt : t < c.length := by
    rcases Nat.lt_or_ge t c.length with h | h
    · exact h
    · exfalso
      have ht : t = c.length := by omega
      have hp2 : (psum c c.length : Int) ≤ v := by rw [← ht]; exact hPt
      rw [psum_length] at hp2
      omega
  have hnot : ¬ ((psum c (t + 1) : Int) ≤ v) :=
    Nat.findGreatest_is_greatest (P := P) (k := t + 1) (n := c.length) (by omega) (by omega)
  have hnotv : v < (psum c (t + 1) : Int) := by omega
  have hiff : ∀ i, i < c.length + 1 →
      ((fun i => decide ((psum c i : Int) ≤ v)) i = true ↔ i ≤ t) := by
    intro i hi
    constructor
    · intro hd
      by_contra hit
      have h1 : t + 1 ≤ i := by omega
      have h2 : (psum c (t + 1) : Int) ≤ (psum c i : Int) := by
        exact_mod_cast psum_mono c h1
      have h3 := of_decide_eq_true hd
      omega
    · intro hit
      apply decide_eq_true
      have h2 : (psum c i : Int) ≤ (psum c t : Int) := by
        exact_mod_cast psum_mono c hit
      omega
  refine ⟨t, ?_, htlt, hPt, hnotv⟩
  unfold chunkIndexOf searchsortedRight chunkBounds
  rw [List.countP_map]
  have hc2 := countP_range_le (c.length + 1) t
    ((fun el : Int => decide (el ≤ v)) ∘ fun i => (psum c i : Int))
    (fun i hi => by simpa [Function.comp] using hiff i hi)
  omega

lemma chunkIndexOf_mono (c : List Nat) {v w : Int} (h : v ≤ w) :
    chunkIndexOf c v ≤ chunkIndexOf c w := by
  unfold chunkIndexOf searchsortedRight
  have hc := countP_mono_pred (chunkBounds c)
    (fun el => decide (el ≤ v)) (fun el => decide (el ≤ w))
    (fun a _ ha => decide_eq_true (le_trans (of_decide_eq_true ha) h))
  omega

lemma boundAt_coe (c : List Nat) (t : Nat) (ht : t ≤ c.length) :
    boundAt c (t : Int) = (psum c t : Int) := by
  unfold boundAt chunkBounds
  rw [Int.toNat_natCast, rangeMap_getD, if_pos (by omega)]

lemma mem_intRangeIncl {a b x : Int} (h1 : a ≤ x) (h2 : x ≤ b) : x ∈ intRangeIncl a b := by
  have hmem : (x - a).toNat ∈ List.range (b + 1 - a).toNat := List.mem_range.mpr (by omega)
  have heq : a + ((x - a).toNat : Int) = x := by omega
  unfold intRangeIncl
  exact List.mem_map.mpr ⟨(x - a).toNat, hmem, heq⟩

lemma srcA_congr {α : Type} (src : ChunkedSource α) {a1 a2 a3 b1 b2 b3 : Int}
    (h1 : a1 = b1) (h2 : a2 = b2) (h3 : a3 = b3) :
    src.A a1 a2 a3 = src.A b1 b2 b3 := by
  rw [h1, h2, h3]

lemma copyChunk_value {α : Type} (src : ChunkedSource α) (x y z : PySlice)
    (out : Int → Int → Int → Option α) (c : Int × Int × Int) (i j k : Int)
    (h : copyWrites src x y z c i j k) :
    copyChunk src x y z out c i j k =
      some (src.A (z.start + i) (y.start + j) (x.start + k)) := by
  unfold copyChunk
  rw [if_pos h]
  unfold get_chunk get_chunk_slices_for_request get_chunk_slices
  dsimp only
  apply congrArg
  apply srcA_congr <;> omega

lemma foldl_copyChunk_no_write {α : Type} (src : ChunkedSource α) (x y z : PySlice)
    (L : List (Int × Int × Int)) (init : Int → Int → Int → Option α) (i j k : Int)
    (h : ∀ e ∈ L, ¬ copyWrites src x y z e i j k) :
    L.foldl (copyChunk src x y z) init i j k = init i j k := by
  induction L generalizing init with
  | nil => rfl
  | cons a t ih =>
      rw [List.foldl_cons, ih _ (fun e he => h e (List.mem_cons_of_mem a he))]
      unfold copyChunk
      rw [if_neg (h a (List.mem_cons_self a t))]

lemma foldl_copyChunk_write {α : Type} (src : ChunkedSource α) (x y z : PySlice)
    (L : List (Int × Int × Int)) (init : Int → Int → Int → Option α) (i j k : Int)
    (h : ∃ e ∈ L, copyWrites src x y z e i j k) :
    L.foldl (copyChunk src x y z) init i j k =
      some (src.A (z.start + i) (y.start + j) (x.start + k)) := by
  revert h
  induction L generalizing init with
  | nil =>
      intro h
      obtain ⟨e, he, -⟩ := h
      cases he
  | cons a t ih =>
      intro h
      rw [List.foldl_cons]
      by_cases hw : ∃ e ∈ t, copyWrites src x y z e i j k
      · exact ih _ hw
      · obtain ⟨e, he, hce⟩ := h
        rcases List.mem_cons.mp he with rfl | het
        · rw [foldl_copyChunk_no_write src x y z t _ i j k
            (fun e' het' hc => hw ⟨e', het', hc⟩)]
          exact copyChunk_value src x y z init e i j k hce
        · exact absurd ⟨e, het, hce⟩ hw

lemma proxyGetRaw_spec {α : Type} (src : ChunkedSource α)
    (hzsum : src.zChunks.sum = src.Nz) (hysum : src.yChunks.sum = src.Ny)
    (hxsum : src.xChunks.sum = src.Nx)
    (az ay ax : SliceArg) (i j k : Int)
    (hi : 0 ≤ i) (hj : 0 ≤ j) (hk : 0 ≤ k)
    (hz1 : 0 ≤ (validate_slice src.Nz az).start)
    (hz2 : (validate_slice src.Nz az).start + i < (validate_slice src.Nz az).stop)
    (hz3 : (validate_slice src.Nz az).stop ≤ src.Nz)
    (hy1 : 0 ≤ (validate_slice src.Ny ay).start)
    (hy2 : (validate_slice src.Ny ay).start + j < (validate_slice src.Ny ay).stop)
    (hy3 : (validate_slice src.Ny ay).stop ≤ src.Ny)
    (hx1 : 0 ≤ (validate_slice src.Nx ax).start)
    (hx2 : (validate_slice src.Nx ax).start + k < (validate_slice src.Nx ax).stop)
    (hx3 : (validate_slice src.Nx ax).stop ≤ src.Nx) :
    proxyGetRaw src az ay ax i j k =
      some (src.A ((validate_slice src.Nz az).start + i)
        ((validate_slice src.Ny ay).start + j)
        ((validate_slice src.Nx ax).start + k)) := by
  set vz := validate_slice src.Nz az with hvz
  set vy := validate_slice src.Ny ay with hvy
  set vx := validate_slice src.Nx ax with hvx
  obtain ⟨tz, etz, htz, hpz1, hpz2⟩ := chunkIndexOf_spec src.zChunks (vz.start + i)
    (by omega) (by rw [hzsum]; omega)
  obtain ⟨ty, ety, hty, hpy1, hpy2⟩ := chunkIndexOf_spec src.yChunks (vy.start + j)
    (by omega) (by rw [hysum]; omega)
  obtain ⟨tx, etx, htx, hpx1, hpx2⟩ := chunkIndexOf_spec src.xChunks (vx.start + k)
    (by omega) (by rw [hxsum]; omega)
  have hmemz : (tz : Int) ∈ intRangeIncl (chunkIndexOf src.zChunks vz.start)
      (chunkIndexOf src.zChunks (vz.stop - 1)) := by
    apply mem_intRangeIncl
    · rw [← etz]
      exact chunkIndexOf_mono src.zChunks (by omega)
    · rw [← etz]
      exact chunkIndexOf_mono src.zChunks (by omega)
  have hmemy : (ty : Int) ∈ intRangeIncl (chunkIndexOf src.yChunks vy.start)
      (chunkIndexOf src.yChunks (vy.stop - 1)) := by
    apply mem_intRangeIncl
    · rw [← ety]
      exact chunkIndexOf_mono src.yChunks (by omega)
    · rw [← ety]
      exact chunkIndexOf_mono src.yChunks (by omega)
  have hmemx : (tx : Int) ∈ intRangeIncl (chunkIndexOf src.xChunks vx.start)
      (chunkIndexOf src.xChunks (vx.stop - 1)) := by
    apply mem_intRangeIncl
    · rw [← etx]
      exact chunkIndexOf_mono src.xChunks (by omega)
    · rw [← etx]
      exact chunkIndexOf_mono src.xChunks (by omega)
  have hmem : ((tz : Int), (ty : Int), (tx : Int)) ∈ find_affected_chunks src vx vy vz := by
    unfold find_affected_chunks
    exact List.mem_flatMap.mpr ⟨(tz : Int), hmemz,
      List.mem_flatMap.mpr ⟨(ty : Int), hmemy,
        List.mem_map.mpr ⟨(tx : Int), hmemx, rfl⟩⟩⟩
  have hbz1 : boundAt src.zChunks (tz : Int) = (psum src.zChunks tz : Int) :=
    boundAt_coe _ tz (by omega)
  have hbz2 : boundAt src.zChunks ((tz : Int) + 1) = (psum src.zChunks (tz + 1) : Int) := by
    rw [show ((tz : Int) + 1) = ((tz + 1 : Nat) : Int) by push_cast; ring]
    exact boundAt_coe _ (tz + 1) (by omega)
  have hby1 : boundAt src.yChunks (ty : Int) = (psum src.yChunks ty : Int) :=
    boundAt_coe _ ty (by omega)
  have hby2 : boundAt src.yChunks ((ty : Int) + 1) = (psum src.yChunks (ty + 1) : Int) := by
    rw [show ((ty : Int) + 1) = ((ty + 1 : Nat) : Int) by push_cast; ring]
    exact boundAt_coe _ (ty + 1) (by omega)
  have hbx1 : boundAt src.xChunks (tx : Int) = (psum src.xChunks tx : Int) :=
    boundAt_coe _ tx (by omega)
  have hbx2 : boundAt src.xChunks ((tx : Int) + 1) = (psum src.xChunks (tx + 1) : Int) := by
    rw [show ((tx : Int) + 1) = ((tx + 1 : Nat) : Int) by push_cast; ring]
    exact boundAt_coe _ (tx + 1) (by omega)
  have hwrites : copyWrites src vx vy vz ((tz : Int), (ty : Int), (tx : Int)) i j k := by
    unfold copyWrites get_chunk_slices_for_request get_chunk_slices
    dsimp only
    rw [hbz1, hbz2, hby1, hby2, hbx1, hbx2]
    refine ⟨?_, ?_, ?_, ?_, ?_, ?_⟩ <;> omega
  show (find_affected_chunks src vx vy vz).foldl (copyChunk src vx vy vz)
      (fun _ _ _ => none) i j k = _
  exact foldl_copyChunk_write src vx vy vz _ _ i j k
    ⟨((tz : Int), (ty : Int), (tx : Int)), hmem, hwrites⟩

/-- C1: on a natively chunked backing array, for ranges fully inside the
array shape, the chunked `__getitem__` path — prefix-sum chunk boundaries,
binary search, per-chunk source/destination slice arithmetic, cached whole
chunks — produces at every output position exactly the backing array's value
at the corresponding absolute coordinates. (The trailing `np.squeeze` only
drops length-1 axes and does not alter element values.) -/
theorem proxy_getitem_matches_backing_array {α : Type} (src : ChunkedSource α)
    (hzsum : src.zChunks.sum = src.Nz) (hysum : src.yChunks.sum = src.Ny)
    (hxsum : src.xChunks.sum = src.Nx)
    (zs ze ys ye xs xe : Int)
    (hz : 0 ≤ zs ∧ zs < ze ∧ ze ≤ (src.Nz : Int))
    (hy : 0 ≤ ys ∧ ys < ye ∧ ye ≤ (src.Ny : Int))
    (hx : 0 ≤ xs ∧ xs < xe ∧ xe ≤ (src.Nx : Int))
    (i j k : Int)
    (hi : 0 ≤ i ∧ i < ze - zs) (hj : 0 ≤ j ∧ j < ye - ys) (hk : 0 ≤ k ∧ k < xe - xs) :
    proxyGetRaw src (SliceArg.sl ⟨zs, ze⟩) (SliceArg.sl ⟨ys, ye⟩)
        (SliceArg.sl ⟨xs, xe⟩) i j k =
      some (src.A (zs + i) (ys + j) (xs + k)) := by
  have hvz : validate_slice src.Nz (SliceArg.sl ⟨zs, ze⟩) = ⟨zs, ze⟩ := by
    simp only [validate_slice, PySlice.mk.injEq]
    constructor <;> omega
  have hvy : validate_slice src.Ny (SliceArg.sl ⟨ys, ye⟩) = ⟨ys, ye⟩ := by
    simp only [validate_slice, PySlice.mk.injEq]
    constructor <;> omega
  have hvx : validate_slice src.Nx (SliceArg.sl ⟨xs, xe⟩) = ⟨xs, xe⟩ := by
    simp only [validate_slice, PySlice.mk.injEq]
    constructor <;> omega
  have h := proxyGetRaw_spec src hzsum hysum hxsum
    (SliceArg.sl ⟨zs, ze⟩) (SliceArg.sl ⟨ys, ye⟩) (SliceArg.sl ⟨xs, xe⟩) i j k
    hi.1 hj.1 hk.1
    (by rw [hvz]; show (0 : Int) ≤ zs; omega)
    (by rw [hvz]; show zs + i < ze; omega)
    (by rw [hvz]; show ze ≤ (src.Nz : Int); omega)
    (by rw [hvy]; show (0 : Int) ≤ ys; omega)
    (by rw [hvy]; show ys + j < ye; omega)
    (by rw [hvy]; show ye ≤ (src.Ny : Int); omega)
    (by rw [hvx]; show (0 : Int) ≤ xs; omega)
    (by rw [hvx]; show xs + k < xe; omega)
    (by rw [hvx]; show xe ≤ (src.Nx : Int); omega)
  rw [hvz, hvy, hvx] at h
  exact h

/-- An example chunked source: shape `(4, 4, 4)`, chunks `(2, 2)` per axis,
cell value `100z + 10y + x`. -/
def exChunkedSrc : ChunkedSource Int :=
  ⟨fun z y x => 100 * z + 10 * y + x, 4, 4, 4, [2, 2], [2, 2], [2, 2]⟩

theorem proxy_getitem_matches_backing_array_witness :
    proxyGetRaw exChunkedSrc (SliceArg.sl ⟨1, 3⟩) (SliceArg.sl ⟨0, 4⟩)
        (SliceArg.sl ⟨1, 4⟩) 1 2 0 = some 221 :=
  proxy_getitem_matches_backing_array exChunkedSrc rfl rfl rfl 1 3 0 4 1 4
    (by decide) (by decide) (by decide) 1 2 0 (by decide) (by decide) (by decide)

/-- C6 counterexample: a range of length 1 does NOT stay a length-1 axis.
Requesting `(slice(0,1), slice(0,2), slice(0,2))` on a `4 × 4 × 4` chunked
source yields shape `[2, 2]` — the trailing `np.squeeze(output)` collapses
the length-1 range axis exactly like an integer index — not the `[1, 2, 2]`
the claim requires. -/
theorem getitem_squeezes_length_one_range :
    proxyGetShape exChunkedSrc (SliceArg.sl ⟨0, 1⟩) (SliceArg.sl ⟨0, 2⟩)
        (SliceArg.sl ⟨0, 2⟩) = [2, 2] ∧
    proxyGetShape exChunkedSrc (SliceArg.sl ⟨0, 1⟩) (SliceArg.sl ⟨0, 2⟩)
        (SliceArg.sl ⟨0, 2⟩) ≠ [1, 2, 2] := by
  constructor
  · rfl
  · intro h
    exact absurd h (by decide)

/-- C6 (amended): each axis of the request is clamped into the array extent
(`0 ≤ start`, `stop ≤ N`); the returned shape is the list of clamped lengths
with EVERY axis of length 1 removed — an axis given as a length-1 range is
collapsed by the trailing `np.squeeze` just like an integer index — and for a
request whose clamped axes are all nonempty, every cell of the assembled
output within the clamped extents is materialized (the call succeeds). -/
theorem getitem_clamps_squeezes_and_succeeds {α : Type} (src : ChunkedSource α)
    (hzsum : src.zChunks.sum = src.Nz) (hysum : src.yChunks.sum = src.Ny)
    (hxsum : src.xChunks.sum = src.Nx) (az ay ax : SliceArg) :
    (0 ≤ (validate_slice src.Nz az).start ∧ (validate_slice src.Nz az).stop ≤ (src.Nz : Int)) ∧
    (0 ≤ (validate_slice src.Ny ay).start ∧ (validate_slice src.Ny ay).stop ≤ (src.Ny : Int)) ∧
    (0 ≤ (validate_slice src.Nx ax).start ∧ (validate_slice src.Nx ax).stop ≤ (src.Nx : Int)) ∧
    proxyGetShape src az ay ax = squeezeShape
      [(validate_slice src.Nz az).stop - (validate_slice src.Nz az).start,
       (validate_slice src.Ny ay).stop - (validate_slice src.Ny ay).start,
       (validate_slice src.Nx ax).stop - (validate_slice src.Nx ax).start] ∧
    (1 : Int) ∉ proxyGetShape src az ay ax ∧
    (∀ i j k : Int, 0 ≤ i → 0 ≤ j → 0 ≤ k →
      (validate_slice src.Nz az).start + i < (validate_slice src.Nz az).stop →
      (validate_slice src.Ny ay).start + j < (validate_slice src.Ny ay).stop →
      (validate_slice src.Nx ax).start + k < (validate_slice src.Nx ax).stop →
      (proxyGetRaw src az ay ax i j k).isSome = true) := by
  have hclamp : ∀ (n : Nat) (a : SliceArg),
      0 ≤ (validate_slice n a).start ∧ (validate_slice n a).stop ≤ (n : Int) := by
    intro n a
    cases a with
    | sl s =>
        constructor
        · show (0 : Int) ≤ max s.start 0
          omega
        · show min s.stop (n : Int) ≤ (n : Int)
          omega
    | idx v =>
        constructor
        · show (0 : Int) ≤ max v 0
          omega
        · show min (v + 1) (n : Int) ≤ (n : Int)
          omega
  refine ⟨hclamp src.Nz az, hclamp src.Ny ay, hclamp src.Nx ax, rfl, ?_, ?_⟩
  · show (1 : Int) ∉ squeezeShape _
    unfold squeezeShape
    intro hmem
    have := (List.mem_filter.mp hmem).2
    simp at this
  · intro i j k hi hj hk hiz hjy hkx
    rw [proxyGetRaw_spec src hzsum hysum hxsum az ay ax i j k hi hj hk
      (hclamp src.Nz az).1 hiz (hclamp src.Nz az).2
      (hclamp src.Ny ay).1 hjy (hclamp src.Ny ay).2
      (hclamp src.Nx ax).1 hkx (hclamp src.Nx ax).2]
    rfl

theorem getitem_clamps_squeezes_and_succeeds_witness :
    (1 : Int) ∉ proxyGetShape exChunkedSrc (SliceArg.idx 2) (SliceArg.sl ⟨0, 4⟩)
      (SliceArg.sl ⟨1, 3⟩) ∧
    (proxyGetRaw exChunkedSrc (SliceArg.idx 2) (SliceArg.sl ⟨0, 4⟩)
      (SliceArg.sl ⟨1, 3⟩) 0 1 0).isSome = true := by
  have h := getitem_clamps_squeezes_and_succeeds exChunkedSrc rfl rfl rfl
    (SliceArg.idx 2) (SliceArg.sl ⟨0, 4⟩) (SliceArg.sl ⟨1, 3⟩)
  exact ⟨h.2.2.2.2.1, h.2.2.2.2.2 0 1 0 (by decide) (by decide) (by decide)
    (by decide) (by decide) (by decide)⟩

/-- Total number of tiles across all LoDs:
`sum([s[0] * s[1] for s in block_contents])`, where `block_contents` lists
the per-LoD tile grid `(x_tiles, y_tiles)`. -/
def totalTiles (block_contents : List (Nat × Nat)) : Nat :=
  (block_contents.map (fun s => s.1 * s.2)).sum

/-- The row-major tile grid of one LoD: `(lod, x, y)` for `y` in
`range(y_tiles)`, `x` in `range(x_tiles)` — the two inner loops of
`Tile.get_tiles_in_range`. -/
def gridTiles (lod w h : Nat) : List (Nat × Nat × Nat) :=
  (List.range h).flatMap (fun y => (List.range w).map (fun x : Nat => (lod, x, y)))

/-- The canonical tile order of `Tile.get_tiles_in_range` for one slice
index, starting at LoD `lod`: LoDs increasing, row-major within each LoD.
The per-LoD grid sizes are the same `(x_tiles, y_tiles)` values that
`Dataset.generate_block_indices` stores into `block_contents` (both compute
`ceil(0.5^lod * extent / tile_size)` from the same dimensions). -/
def canonicalTilesFrom (lod : Nat) : List (Nat × Nat) → List (Nat × Nat × Nat)
  | [] => []
  | wh :: rest => gridTiles lod wh.1 wh.2 ++ canonicalTilesFrom (lod + 1) rest

/-- All tiles of one block file in on-disk order. -/
def canonicalTiles (block_contents : List (Nat × Nat)) : List (Nat × Nat × Nat) :=
  canonicalTilesFrom 0 block_contents

/-- Model of `BlockFile.convert_intermediate_single_tile_files`: walk the
tiles in canonical order, accumulate the 4-byte little-endian size header and
the concatenated tile bodies, and write header then body. `cache lod x y`
gives a tile's encoded bytes (`generation_cache.get_data`). -/
def convert_intermediate_single_tile_files (block_contents : List (Nat × Nat))
    (cache : Nat → Nat → Nat → Bytes) : Bytes :=
  let tiles := canonicalTiles block_contents
  let hb := tiles.foldl (fun (acc : Bytes × Bytes) t =>
      let tile_data := cache t.1 t.2.1 t.2.2
      (acc.1 ++ u32le tile_data.length, acc.2 ++ tile_data)) ([], [])
  hb.1 ++ hb.2

/-- Little-endian decode of a 4-byte group:
`int.from_bytes(header_data[i*4:(i+1)*4], byteorder="little")`. -/
def u32dec (b : Bytes) : Nat :=
  b.getD 0 0 + 256 * b.getD 1 0 + 2 ^ 16 * b.getD 2 0 + 2 ^ 24 * b.getD 3 0

/-- Model of `BlockFile.load_header`: read `4 * total_tiles` bytes and decode
each 4-byte group. -/
def load_header (file : Bytes) (total_tiles : Nat) : List Nat :=
  let header_data := file.take (4 * total_tiles)
  (List.range total_tiles).map (fun i => u32dec ((header_data.drop (4 * i)).take 4))

/-- Maximal runs of consecutive indices: the grouping produced by
`groupby(enumerate(block_indices), lambda i: i[0] - i[1])` — adjacent entries
share a key exactly when the later one is the earlier plus one. -/
def groupRuns : List Nat → List (List Nat)
  | [] => []
  | x :: xs =>
      match groupRuns xs with
      | (y :: ys) :: rest =>
          if y = x + 1 then (x :: y :: ys) :: rest else [x] :: (y :: ys) :: rest
      | gs => [x] :: gs

/-- Model of `BlockFile.get_tile_data` for requested tiles `(x, y)` at one
LoD `L` (the source reads `tiles[0].lod` and assumes the LoD is the same
throughout): compute each tile's flat block index, group adjacent runs, seek
once per run to its byte offset, and read each tile's bytes in turn.
Returns `(sizes, data)`. -/
def get_tile_data (file : Bytes) (block_contents : List (Nat × Nat)) (L : Nat)
    (xys : List (Nat × Nat)) : List Nat × Bytes :=
  let block_sizes := load_header file (totalTiles block_contents)
  let header_offset := totalTiles block_contents * 4
  let block_index_offset := ((block_contents.take L).map (fun s => s.1 * s.2)).sum
  let block_indices := xys.map (fun xy =>
    block_index_offset + xy.2 * (block_contents.getD L (0, 0)).1 + xy.1)
  let step := fun (acc : List Nat × Bytes) (group : List Nat) =>
    let my_byte_offset := header_offset + ((block_sizes.take (group.headD 0)).sum)
    (group.foldl (fun (st : (List Nat × Bytes) × Nat) e =>
        let my_byte_size := block_sizes.getD e 0
        ((st.1.1 ++ [my_byte_size], st.1.2 ++ ((file.drop st.2).take my_byte_size)),
          st.2 + my_byte_size))
      (acc, my_byte_offset)).1
  (groupRuns block_indices).foldl step ([], [])

lemma flatMap_length_uniform {β : Type} (n w : Nat) (f : Nat → List β)
    (hf : ∀ i, (f i).length = w) : ((List.range n).flatMap f).length = n * w := by
  induction n with
  | zero => simp
  | succ n ih =>
      rw [List.range_succ, List.flatMap_append, List.length_append, ih]
      simp [hf n]
      ring

lemma gridTiles_length (lod w h : Nat) : (gridTiles lod w h).length = w * h := by
  unfold gridTiles
  rw [flatMap_length_uniform h w _ (fun i => by simp)]
  ring

lemma canonicalTilesFrom_length (bc : List (Nat × Nat)) (lod : Nat) :
    (canonicalTilesFrom lod bc).length = totalTiles bc := by
  induction bc generalizing lod with
  | nil => rfl
  | cons wh rest ih =>
      show (gridTiles lod wh.1 wh.2 ++ canonicalTilesFrom (lod + 1) rest).length = _
      rw [List.length_append, gridTiles_length, ih (lod + 1)]
      show _ = ((wh :: rest).map (fun s => s.1 * s.2)).sum
      simp [totalTiles]

lemma canonicalTilesFrom_append (l1 l2 : List (Nat × Nat)) (lod : Nat) :
    canonicalTilesFrom lod (l1 ++ l2) =
      canonicalTilesFrom lod l1 ++ canonicalTilesFrom (lod + l1.length) l2 := by
  induction l1 generalizing lod with
  | nil => simp [canonicalTilesFrom]
  | cons wh rest ih =>
      show gridTiles lod wh.1 wh.2 ++ canonicalTilesFrom (lod + 1) (rest ++ l2) = _
      rw [ih (lod + 1)]
      show _ = (gridTiles lod wh.1 wh.2 ++ canonicalTilesFrom (lod + 1) rest) ++ _
      rw [List.append_assoc]
      have : lod + 1 + rest.length = lod + (wh :: rest).length := by
        simp
        omega
      rw [this]

lemma rangeMap_split {β : Type} (w x : Nat) (hx : x < w) (g : Nat → β) :
    ∃ pre suf, (List.range w).map g = pre ++ g x :: suf ∧ pre.length = x := by
  have h1 : (List.range w).map g =
      (List.range x).map g ++ (List.range (w - x)).map (fun t => g (x + t)) := by
    conv_lhs => rw [show w = x + (w - x) by omega, List.range_add, List.map_append]
    rw [List.map_map]
    rfl
  have h2 : (List.range (w - x)).map (fun t => g (x + t)) =
      g (x + 0) :: (List.range (w - x - 1)).map (fun t => g (x + Nat.succ t)) := by
    rw [show w - x = (w - x - 1) + 1 by omega, List.range_succ_eq_map, List.map_cons,
      List.map_map]
    rfl
  refine ⟨(List.range x).map g, (List.range (w - x - 1)).map (fun t => g (x + Nat.succ t)),
    ?_, by simp⟩
  rw [h1, h2, Nat.add_zero]

lemma gridTiles_split (lod w h x y : Nat) (hx : x < w) (hy : y < h) :
    ∃ pre suf, gridTiles lod w h = pre ++ (lod, x, y) :: suf ∧ pre.length = y * w + x := by
  induction h with
  | zero => omega
  | succ h ih =>
      have hgrid : gridTiles lod w (h + 1) = gridTiles lod w h ++
          (List.range w).map (fun x' : Nat => (lod, x', h)) := by
        unfold gridTiles
        rw [List.range_succ, List.flatMap_append, List.flatMap_cons, List.flatMap_nil,
          List.append_nil]
      rcases Nat.lt_or_ge y h with hyh | hyh
      · obtain ⟨pre, suf, heq, hlen⟩ := ih hyh
        refine ⟨pre, suf ++ (List.range w).map (fun x' : Nat => (lod, x', h)), ?_, hlen⟩
        rw [hgrid, heq]
        simp
      · have hy' : y = h := by omega
        subst hy'
        obtain ⟨pre, suf, heq, hlen⟩ := rangeMap_split w x hx (fun x' : Nat => (lod, x', y))
        refine ⟨gridTiles lod w y ++ pre, suf, ?_, ?_⟩
        · rw [hgrid, heq]
          simp
        · rw [List.length_append, gridTiles_length, hlen]
          ring

lemma canonical_split (bc : List (Nat × Nat)) (L x y : Nat)
    (hL : L < bc.length) (hx : x < (bc.getD L (0, 0)).1) (hy : y < (bc.getD L (0, 0)).2) :
    ∃ pre suf, canonicalTiles bc = pre ++ (L, x, y) :: suf ∧
      pre.length = totalTiles (bc.take L) + y * (bc.getD L (0, 0)).1 + x := by
  have hgetD : bc.getD L (0, 0) = bc[L] := List.getD_eq_getElem bc (0, 0) hL
  obtain ⟨gpre, gsuf, gheq, ghlen⟩ :=
    gridTiles_split L bc[L].1 bc[L].2 x y (hgetD ▸ hx) (hgetD ▸ hy)
  refine ⟨canonicalTilesFrom 0 (bc.take L) ++ gpre,
    gsuf ++ canonicalTilesFrom (L + 1) (bc.drop (L + 1)), ?_, ?_⟩
  · have hbc : bc = bc.take L ++ bc[L] :: bc.drop (L + 1) := by
      conv_lhs => rw [← List.take_append_drop L bc]
      rw [List.drop_eq_getElem_cons hL]
    unfold canonicalTiles
    conv_lhs => rw [hbc]
    rw [canonicalTilesFrom_append]
    have hlen : (bc.take L).length = L := by
      rw [List.length_take]
      omega
    rw [hlen, Nat.zero_add]
    show _ ++ (gridTiles L bc[L].1 bc[L].2 ++ _) = _
    rw [gheq]
    simp
  · rw [List.length_append, canonicalTilesFrom_length, ghlen, hgetD]
    omega

lemma u32_roundtrip (s : Nat) (hs : s < 2 ^ 32) : u32dec (u32le s) = s := by
  show s % 256 + 256 * (s / 256 % 256) + 2 ^ 16 * (s / 2 ^ 16 % 256) +
    2 ^ 24 * (s / 2 ^ 24 % 256) = s
  omega

lemma flatMap_u32le_length (sizes : List Nat) : (sizes.flatMap u32le).length = 4 * sizes.length := by
  induction sizes with
  | nil => rfl
  | cons s t ih =>
      rw [List.flatMap_cons, List.length_append, ih]
      show 4 + 4 * t.length = 4 * (t.length + 1)
      ring

lemma flatMap_u32le_drop (sizes : List Nat) (i : Nat) (hi : i < sizes.length) :
    ((sizes.flatMap u32le).drop (4 * i)).take 4 = u32le (sizes.getD i 0) := by
  induction sizes generalizing i with
  | nil => exact absurd hi (by simp)
  | cons s t ih =>
      cases i with
      | zero =>
          rw [List.flatMap_cons, Nat.mul_zero, List.drop_zero]
          rw [List.take_left' (by rfl)]
          rfl
      | succ n =>
          rw [List.flatMap_cons]
          have hd : (u32le s ++ t.flatMap u32le).drop (4 * (n + 1)) =
              (t.flatMap u32le).drop (4 * n) := by
            rw [show 4 * (n + 1) = (u32le s).length + 4 * n by show _ = 4 + 4 * n; ring]
            rw [List.drop_append]
          rw [hd, ih n (by simpa using Nat.lt_of_succ_lt_succ (by simpa using hi))]
          rfl

lemma load_header_spec (sizes : List Nat) (rest : Bytes) (hlt : ∀ s ∈ sizes, s < 2 ^ 32) :
    load_header ((sizes.flatMap u32le) ++ rest) sizes.length = sizes := by
  unfold load_header
  rw [List.take_left' (flatMap_u32le_length sizes)]
  apply List.ext_getElem
  · simp
  · intro i h1 h2
    rw [List.getElem_map, List.getElem_range]
    rw [flatMap_u32le_drop sizes i h2]
    rw [List.getD_eq_getElem sizes 0 h2, u32_roundtrip _ (hlt _ (List.getElem_mem h2))]

lemma flatten_extract (ds : List Bytes) (i : Nat) (hi : i < ds.length) :
    ((ds.flatten).drop (((ds.take i).map List.length).sum)).take (ds.getD i []).length =
      ds.getD i [] := by
  induction ds generalizing i with
  | nil => exact absurd hi (by simp)
  | cons d t ih =>
      cases i with
      | zero =>
          show ((d ++ t.flatten).drop 0).take d.length = d
          rw [List.drop_zero, List.take_left]
      | succ n =>
          show ((d ++ t.flatten).drop (d.length + ((t.take n).map List.length).sum)).take _ = _
          rw [List.drop_append]
          exact ih n (by simpa using Nat.lt_of_succ_lt_succ (by simpa using hi))

lemma convert_foldl_eq (ts : List (Nat × Nat × Nat)) (cache : Nat → Nat → Nat → Bytes)
    (acc : Bytes × Bytes) :
    ts.foldl (fun (acc : Bytes × Bytes) t =>
        let tile_data := cache t.1 t.2.1 t.2.2
        (acc.1 ++ u32le tile_data.length, acc.2 ++ tile_data)) acc =
      (acc.1 ++ ts.flatMap (fun t => u32le (cache t.1 t.2.1 t.2.2).length),
       acc.2 ++ ts.flatMap (fun t => cache t.1 t.2.1 t.2.2)) := by
  induction ts generalizing acc with
  | nil => simp
  | cons a t ih =>
      rw [List.foldl_cons, ih, List.flatMap_cons, List.flatMap_cons]
      simp

lemma convert_eq_header_body (bc : List (Nat × Nat)) (cache : Nat → Nat → Nat → Bytes) :
    convert_intermediate_single_tile_files bc cache =
      ((canonicalTiles bc).map (fun t => (cache t.1 t.2.1 t.2.2).length)).flatMap u32le ++
      ((canonicalTiles bc).map (fun t => cache t.1 t.2.1 t.2.2)).flatten := by
  unfold convert_intermediate_single_tile_files
  dsimp only
  rw [convert_foldl_eq]
  simp only [List.flatMap_def, List.nil_append, List.map_map]
  rfl

/-- A list of consecutive naturals starting at `h`. -/
def IsRunFrom : Nat → List Nat → Prop
  | _, [] => True
  | h, x :: xs => x = h ∧ IsRunFrom (h + 1) xs

lemma groupRuns_cons (x : Nat) (xs : List Nat) :
    groupRuns (x :: xs) = match groupRuns xs with
      | (y :: ys) :: rest =>
          if y = x + 1 then (x :: y :: ys) :: rest else [x] :: (y :: ys) :: rest
      | gs => [x] :: gs := rfl

lemma groupRuns_spec (l : List Nat) :
    (groupRuns l).flatten = l ∧
      ∀ g ∈ groupRuns l, ∃ hd tl, g = hd :: tl ∧ IsRunFrom hd g := by
  induction l with
  | nil => exact ⟨rfl, fun g hg => absurd hg (by simp [groupRuns])⟩
  | cons x xs ih =>
      obtain ⟨ihf, ihr⟩ := ih
      rw [groupRuns_cons]
      cases hg : groupRuns xs with
      | nil =>
          rw [hg] at ihf
          simp at ihf
          subst ihf
          exact ⟨by simp, by
            intro g hgm
            rcases List.mem_cons.mp hgm with rfl | hgm
            · exact ⟨x, [], rfl, rfl, trivial⟩
            · cases hgm⟩
      | cons g rest =>
          cases g with
          | nil =>
              exfalso
              obtain ⟨hd, tl, heq, -⟩ := ihr [] (hg ▸ List.mem_cons_self _ _)
              cases heq
          | cons y ys =>
              rw [hg] at ihf ihr
              dsimp only
              by_cases hyx : y = x + 1
              · rw [if_pos hyx]
                constructor
                · show (x :: y :: ys) ++ rest.flatten = x :: xs
                  rw [← ihf]
                  simp
                · intro g hgm
                  rcases List.mem_cons.mp hgm with rfl | hgm
                  · obtain ⟨hd, tl, heq, hrun⟩ := ihr (y :: ys) (List.mem_cons_self _ _)
                    obtain ⟨rfl, -⟩ := List.cons.injEq y ys hd tl ▸ heq
                    refine ⟨x, y :: ys, rfl, rfl, ?_⟩
                    rw [hyx] at hrun ⊢
                    exact hrun
                  · exact ihr g (List.mem_cons_of_mem _ hgm)
              · rw [if_neg hyx]
                constructor
                · show [x] ++ ((y :: ys) :: rest).flatten = x :: xs
                  rw [ihf]
                  rfl
                · intro g hgm
                  rcases List.mem_cons.mp hgm with rfl | hgm
                  · exact ⟨x, [], rfl, rfl, trivial⟩
                  · exact ihr g hgm

lemma run_fold (file : Bytes) (sizes : List Nat) (hoff : Nat) (run : List Nat) (h0 : Nat)
    (hrun : IsRunFrom h0 run) (acc : List Nat × Bytes) :
    (run.foldl (fun (st : (List Nat × Bytes) × Nat) e =>
        ((st.1.1 ++ [sizes.getD e 0], st.1.2 ++ ((file.drop st.2).take (sizes.getD e 0))),
          st.2 + sizes.getD e 0))
      (acc, hoff + (sizes.take h0).sum)).1 =
      (acc.1 ++ run.map (fun e => sizes.getD e 0),
       acc.2 ++ (run.map (fun e =>
         (file.drop (hoff + (sizes.take e).sum)).take (sizes.getD e 0))).flatten) := by
  revert hrun
  induction run generalizing h0 acc with
  | nil =>
      intro _
      simp
  | cons e rest ih =>
      intro hrun
      obtain ⟨he, hrest⟩ := hrun
      subst he
      rw [List.foldl_cons]
      have hpos : hoff + (sizes.take e).sum + sizes.getD e 0 =
          hoff + (sizes.take (e + 1)).sum := by
        have h := psum_succ sizes e
        unfold psum at h
        omega
      dsimp only
      rw [hpos, ih (e + 1) ((acc.1 ++ [sizes.getD e 0]),
        (acc.2 ++ (file.drop (hoff + (sizes.take e).sum)).take (sizes.getD e 0))) hrest]
      simp

lemma groups_fold (file : Bytes) (sizes : List Nat) (hoff : Nat) (gs : List (List Nat))
    (acc : List Nat × Bytes)
    (hgs : ∀ g ∈ gs, ∃ hd tl, g = hd :: tl ∧ IsRunFrom hd g) :
    gs.foldl (fun (acc : List Nat × Bytes) (group : List Nat) =>
        (group.foldl (fun (st : (List Nat × Bytes) × Nat) e =>
            ((st.1.1 ++ [sizes.getD e 0], st.1.2 ++ ((file.drop st.2).take (sizes.getD e 0))),
              st.2 + sizes.getD e 0))
          (acc, hoff + (sizes.take (group.headD 0)).sum)).1) acc =
      (acc.1 ++ (gs.flatten).map (fun e => sizes.getD e 0),
       acc.2 ++ ((gs.flatten).map (fun e =>
         (file.drop (hoff + (sizes.take e).sum)).take (sizes.getD e 0))).flatten) := by
  induction gs generalizing acc with
  | nil => simp
  | cons g rest ih =>
      rw [List.foldl_cons]
      obtain ⟨hd, tl, heq, hrun⟩ := hgs g (List.mem_cons_self _ _)
      have hhead : g.headD 0 = hd := by rw [heq]; rfl
      rw [hhead, run_fold file sizes hoff g hd hrun acc,
        ih _ (fun g' hg' => hgs g' (List.mem_cons_of_mem _ hg'))]
      simp

/-- C4: a block file built by `convert_intermediate_single_tile_files` is a
header of `N_total` little-endian uint32 tile sizes followed by the tile
bodies in canonical order (LoDs increasing, row-major within each LoD), and
`BlockFile.get_tile_data` returns, for each requested `(x, y)` at LoD `L`,
exactly the stored bytes of the tile at flat index
`Σ gw·gh (LoDs < L) + y·gw(L) + x` together with the matching header sizes,
reading adjacent runs contiguously. -/
theorem blockfile_read_returns_stored_tiles (bc : List (Nat × Nat))
    (cache : Nat → Nat → Nat → Bytes)
    (hsz : ∀ t ∈ canonicalTiles bc, (cache t.1 t.2.1 t.2.2).length < 2 ^ 32)
    (L : Nat) (hL : L < bc.length) (xys : List (Nat × Nat))
    (hxy : ∀ p ∈ xys, p.1 < (bc.getD L (0, 0)).1 ∧ p.2 < (bc.getD L (0, 0)).2) :
    get_tile_data (convert_intermediate_single_tile_files bc cache) bc L xys =
      (xys.map (fun p => (cache L p.1 p.2).length),
       (xys.map (fun p => cache L p.1 p.2)).flatten) := by
  have hfile : convert_intermediate_single_tile_files bc cache =
      ((canonicalTiles bc).map (fun t => (cache t.1 t.2.1 t.2.2).length)).flatMap u32le ++
      ((canonicalTiles bc).map (fun t => cache t.1 t.2.1 t.2.2)).flatten :=
    convert_eq_header_body bc cache
  set tiles := canonicalTiles bc with htiles
  set sizes := tiles.map (fun t => (cache t.1 t.2.1 t.2.2).length) with hsizes
  set blobs := tiles.map (fun t => cache t.1 t.2.1 t.2.2) with hblobs
  have hsb : sizes = blobs.map List.length := by
    rw [hsizes, hblobs, List.map_map]
    rfl
  have hslen : sizes.length = totalTiles bc := by
    rw [hsizes, List.length_map, htiles]
    exact canonicalTilesFrom_length bc 0
  have hheader : load_header (convert_intermediate_single_tile_files bc cache)
      (totalTiles bc) = sizes := by
    rw [hfile, ← hslen]
    apply load_header_spec
    intro s hs
    rw [hsizes] at hs
    obtain ⟨t, ht, rfl⟩ := List.mem_map.mp hs
    exact hsz t ht
  have hkey : ∀ p ∈ xys,
      sizes.getD (totalTiles (bc.take L) + p.2 * (bc.getD L (0, 0)).1 + p.1) 0 =
        (cache L p.1 p.2).length ∧
      ((convert_intermediate_single_tile_files bc cache).drop
          (totalTiles bc * 4 + ((sizes.take
            (totalTiles (bc.take L) + p.2 * (bc.getD L (0, 0)).1 + p.1)).sum))).take
        (sizes.getD (totalTiles (bc.take L) + p.2 * (bc.getD L (0, 0)).1 + p.1) 0) =
        cache L p.1 p.2 := by
    intro p hp
    obtain ⟨hx, hy⟩ := hxy p hp
    obtain ⟨pre, suf, hteq, hplen⟩ := canonical_split bc L p.1 p.2 hL hx hy
    rw [← htiles] at hteq
    set I := totalTiles (bc.take L) + p.2 * (bc.getD L (0, 0)).1 + p.1 with hI
    rw [← hplen] at hI
    have hgetDs : sizes.getD I 0 = (cache L p.1 p.2).length := by
      rw [hsizes, hteq, List.map_append, List.map_cons,
        List.getD_append_right _ _ _ _ (by rw [List.length_map]; omega)]
      rw [List.length_map]
      rw [show I - pre.length = 0 by omega]
      rfl
    have hgetDb : blobs.getD I [] = cache L p.1 p.2 := by
      rw [hblobs, hteq, List.map_append, List.map_cons,
        List.getD_append_right _ _ _ _ (by rw [List.length_map]; omega)]
      rw [List.length_map]
      rw [show I - pre.length = 0 by omega]
      rfl
    have hIlt : I < blobs.length := by
      rw [hblobs, List.length_map, hteq]
      simp
      omega
    refine ⟨hgetDs, ?_⟩
    rw [hfile]
    rw [show totalTiles bc * 4 + (sizes.take I).sum =
        (sizes.flatMap u32le).length + (sizes.take I).sum by
      rw [flatMap_u32le_length, hslen]
      ring_nf]
    rw [List.drop_append]
    have hext := flatten_extract blobs I hIlt
    rw [hgetDb] at hext
    rw [show (sizes.take I).sum = ((blobs.take I).map List.length).sum by
      rw [hsb, List.map_take]]
    rw [show sizes.getD I 0 = (cache L p.1 p.2).length from hgetDs]
    rw [show (cache L p.1 p.2).length = (blobs.getD I []).length by rw [hgetDb]] at hext ⊢
    exact hext
  unfold get_tile_data
  dsimp only
  rw [hheader]
  rw [groups_fold (convert_intermediate_single_tile_files bc cache) sizes
    (totalTiles bc * 4)
    (groupRuns (xys.map (fun xy =>
      ((bc.take L).map (fun s => s.1 * s.2)).sum + xy.2 * (bc.getD L (0, 0)).1 + xy.1)))
    ([], [])
    (groupRuns_spec _).2]
  rw [(groupRuns_spec _).1]
  rw [List.nil_append, List.nil_append, List.map_map, List.map_map]
  rw [Prod.mk.injEq]
  constructor
  · apply List.map_congr_left
    intro p hp
    exact (hkey p hp).1
  · apply congrArg
    apply List.map_congr_left
    intro p hp
    exact (hkey p hp).2

theorem blockfile_read_returns_stored_tiles_witness :
    get_tile_data (convert_intermediate_single_tile_files [(2, 2), (1, 1)]
        (fun lod x y => [lod * 100 + y * 10 + x])) [(2, 2), (1, 1)] 0 [(0, 1), (1, 1)] =
      ([1, 1], [10, 11]) := by
  have h := blockfile_read_returns_stored_tiles [(2, 2), (1, 1)]
    (fun lod x y => [lod * 100 + y * 10 + x])
    (by decide) 0 (by decide) [(0, 1), (1, 1)] (by decide)
  rw [h]
  rfl

/-- The per-dataset state consulted by `handle_tile_request_standalone`: the
valid parameter list, the pre-generation sparsity, the per-LoD tile grid of
the requested index dimension (`block_contents`), and the block file bytes on
disk (`none` = no such file; opening it would raise). -/
structure StandaloneDataset where
  all_valid_parameters : List String
  pre_generation_sparsity : Int
  block_contents : List (Nat × Nat)
  blockFileBytes : Option Bytes

/-- The observable effect of one `handle_tile_request_standalone` call. -/
inductive StandaloneOutcome where
  | logOnly (msg : String) : StandaloneOutcome
  | emitTileData (sizes : List Nat) (data : Bytes) : StandaloneOutcome
  | noEmit : StandaloneOutcome
  | raised : StandaloneOutcome
deriving DecidableEq

/-- Model of `TileServer.handle_tile_request_standalone`. A failed lookup or
a non-sparsity-aligned slice index executes `return print(...)`: a
server-side log line, after which the handler returns `None` — nothing is
emitted to the client. Only the success path emits a `tile_data` event. -/
def handle_tile_request_standalone (datasets : String → Option StandaloneDataset)
    (ignore_tile_cache : Bool) (dataset_id parameter : String) (index_value : Int)
    (lod : Nat) (xys : List (Nat × Nat)) : StandaloneOutcome :=
  match datasets dataset_id with
  | none => StandaloneOutcome.logOnly "Dataset id or parameter not found"
  | some dataset =>
      if parameter ∈ dataset.all_valid_parameters then
        if index_value % dataset.pre_generation_sparsity ≠ 0 then
          StandaloneOutcome.logOnly "Bad request for index value"
        else
          match dataset.blockFileBytes with
          | none => StandaloneOutcome.raised
          | some file =>
              let sd := get_tile_data file dataset.block_contents lod xys
              if ignore_tile_cache then StandaloneOutcome.noEmit
              else StandaloneOutcome.emitTileData sd.1 sd.2
      else StandaloneOutcome.logOnly "Dataset id or parameter not found"

/-- The message (if any) sent back to the requesting client. -/
def clientMessage : StandaloneOutcome → Option (List Nat × Bytes)
  | StandaloneOutcome.emitTileData s d => some (s, d)
  | _ => none

/-- An example standalone dataset with sparsity 10 and a one-tile block file. -/
def exStandaloneDs : StandaloneDataset :=
  { all_valid_parameters := ["t2m"],
    pre_generation_sparsity := 10,
    block_contents := [(1, 1)],
    blockFileBytes := some (convert_intermediate_single_tile_files [(1, 1)]
      (fun _ _ _ => [7])) }

/-- C9 counterexample: a request for slice index 5 with sparsity 10 (valid
dataset and parameter, block file present) is rejected with only a
server-side `print`; NO message of any kind — in particular no error
response — is sent to the client, contradicting the claim that the rejection
is surfaced to the client as an error response. -/
theorem standalone_unaligned_slice_sends_nothing :
    handle_tile_request_standalone
        (fun id => if id = "ds" then some exStandaloneDs else none)
        false "ds" "t2m" 5 0 [(0, 0)] =
      StandaloneOutcome.logOnly "Bad request for index value" ∧
    clientMessage (handle_tile_request_standalone
        (fun id => if id = "ds" then some exStandaloneDs else none)
        false "ds" "t2m" 5 0 [(0, 0)]) = none := by
  constructor
  · rfl
  · rfl

/-- C9 (amended): a request whose slice index is not a multiple of the
dataset's sparsity is rejected — no tile bytes are served — but the
rejection is only logged on the server; no response (error or otherwise) is
sent to the client. Each request is handled by an independent call, so other
requests are unaffected. -/
theorem standalone_unaligned_slice_dropped (datasets : String → Option StandaloneDataset)
    (ignore_tile_cache : Bool) (dataset_id parameter : String) (index_value : Int)
    (lod : Nat) (xys : List (Nat × Nat)) (ds : StandaloneDataset)
    (hds : datasets dataset_id = some ds)
    (hparam : parameter ∈ ds.all_valid_parameters)
    (hmod : index_value % ds.pre_generation_sparsity ≠ 0) :
    handle_tile_request_standalone datasets ignore_tile_cache dataset_id parameter
        index_value lod xys = StandaloneOutcome.logOnly "Bad request for index value" ∧
    clientMessage (handle_tile_request_standalone datasets ignore_tile_cache dataset_id
        parameter index_value lod xys) = none := by
  have h : handle_tile_request_standalone datasets ignore_tile_cache dataset_id parameter
      index_value lod xys = StandaloneOutcome.logOnly "Bad request for index value" := by
    unfold handle_tile_request_standalone
    rw [hds]
    dsimp only
    rw [if_pos hparam, if_pos hmod]
  exact ⟨h, by rw [h]; rfl⟩

theorem standalone_unaligned_slice_dropped_witness :
    handle_tile_request_standalone
        (fun id => if id = "ds" then some exStandaloneDs else none)
        true "ds" "t2m" 23 1 [] =
      StandaloneOutcome.logOnly "Bad request for index value" :=
  (standalone_unaligned_slice_dropped
    (fun id => if id = "ds" then some exStandaloneDs else none)
    true "ds" "t2m" 23 1 [] exStandaloneDs rfl (by decide) (by decide)).1

/-- One `[done, total]` entry of `request_progress[group_id]`. -/
structure ProgressEntry where
  done : Nat
  total : Nat
deriving DecidableEq

/-- The aggregated `(done_sum, total_sum)` pair that `update_progress`
computes over the group and emits in widget mode. -/
def aggregate (st : List ProgressEntry) : Nat × Nat :=
  ((st.map (fun e => e.done)).sum, (st.map (fun e => e.total)).sum)

/-- `update_progress(group, request, done, total)` with `total ≥ 0`, as used
by `pre_register_requests` on a fresh consecutive request id: a new
`[done, total]` entry is appended. -/
def update_progress_register (st : List ProgressEntry) (done total : Nat) :
    List ProgressEntry :=
  st ++ [⟨done, total⟩]

/-- `update_progress(group, request, done)` with the default `total = -1`:
the `done` field of request `i`'s entry is overwritten. -/
def update_progress_done (st : List ProgressEntry) (i : Nat) (d : Nat) :
    List ProgressEntry :=
  st.set i ⟨d, (st.getD i ⟨0, 0⟩).total⟩

/-- Model of `pre_register_requests` for one group: each request receives the
next consecutive id, its progress is seeded `(0, len(xys))`, and (widget
mode) the aggregate is emitted. Returns the final state and the emissions. -/
def pre_register_requests (totals : List Nat) :
    List ProgressEntry × List (Nat × Nat) :=
  totals.foldl (fun (acc : List ProgressEntry × List (Nat × Nat)) t =>
    let st := update_progress_register acc.1 0 t
    (st, acc.2 ++ [aggregate st])) ([], [])

/-- The progress updates of `handle_tile_request_widget` for request `i` with
`t = len(xys)` tiles: after each tile, `update_progress(group, i, len(sizes))`
sets `done` to the number of finished tiles and the aggregate is emitted. -/
def handle_request_progress (st : List ProgressEntry) (i t : Nat) :
    List ProgressEntry × List (Nat × Nat) :=
  (List.range t).foldl (fun (acc : List ProgressEntry × List (Nat × Nat)) j =>
    let st' := update_progress_done acc.1 i (j + 1)
    (st', acc.2 ++ [aggregate st'])) (st, [])

/-- The full sequence of aggregated progress pairs emitted for one widget
request group: the registration emissions of `pre_register_requests`, then
the per-tile emissions of each request, dispatched in order (the widget's
`receive_message` loops over the requests sequentially). -/
def widgetGroupTrace (totals : List Nat) : List (Nat × Nat) :=
  let reg := pre_register_requests totals
  let dispatch := (List.range totals.length).foldl
    (fun (acc : List ProgressEntry × List (Nat × Nat)) i =>
      let hr := handle_request_progress acc.1 i (totals.getD i 0)
      (hr.1, acc.2 ++ hr.2)) (reg.1, [])
  reg.2 ++ dispatch.2

/-- The group state after the first `i` requests have fully completed. -/
def stateAfter (totals : List Nat) (i : Nat) : List ProgressEntry :=
  (List.range totals.length).map (fun k =>
    if k < i then ⟨totals.getD k 0, totals.getD k 0⟩ else ⟨0, totals.getD k 0⟩)

lemma sum_range_getD (l : List Nat) (m : Nat) :
    ((List.range m).map (fun k => l.getD k 0)).sum = (l.take m).sum := by
  induction m with
  | zero => rfl
  | succ m ih =>
      rw [List.range_succ, List.map_append, List.sum_append, ih]
      have h := psum_succ l m
      unfold psum at h
      simp only [List.map_cons, List.map_nil, List.sum_cons, List.sum_nil]
      omega

lemma sum_map_set (l : List ProgressEntry) (i : Nat)
    (v : ProgressEntry) (f : ProgressEntry → Nat) (hi : i < l.length) :
    ((l.set i v).map f).sum + f (l.getD i ⟨0, 0⟩) = (l.map f).sum + f v := by
  induction l generalizing i with
  | nil => exact absurd hi (by simp)
  | cons a t ih =>
      cases i with
      | zero =>
          show f v + (t.map f).sum + f a = f a + (t.map f).sum + f v
          omega
      | succ n =>
          have hn : n < t.length := by simpa using Nat.lt_of_succ_lt_succ (by simpa using hi)
          have := ih n hn
          show f a + ((t.set n v).map f).sum + f (t.getD n ⟨0, 0⟩) =
            f a + (t.map f).sum + f v
          omega

lemma pre_register_requests_closed (totals : List Nat) :
    pre_register_requests totals =
      (totals.map (fun t => ⟨0, t⟩),
       (List.range totals.length).map (fun i => (0, (totals.take (i + 1)).sum))) := by
  suffices h : ∀ (ts : List Nat) (st0 : List ProgressEntry) (em0 : List (Nat × Nat)),
      ts.foldl (fun (acc : List ProgressEntry × List (Nat × Nat)) t =>
          let st := update_progress_register acc.1 0 t
          (st, acc.2 ++ [aggregate st])) (st0, em0) =
        (st0 ++ ts.map (fun t => ⟨0, t⟩),
         em0 ++ (List.range ts.length).map (fun i =>
           ((st0.map (fun e => e.done)).sum,
            (st0.map (fun e => e.total)).sum + (ts.take (i + 1)).sum))) by
    have h2 := h totals [] []
    unfold pre_register_requests
    rw [h2]
    simp
  intro ts
  induction ts with
  | nil =>
      intro st0 em0
      simp
  | cons t rest ih =>
      intro st0 em0
      rw [List.foldl_cons]
      dsimp only
      rw [ih]
      rw [Prod.mk.injEq]
      constructor
      · unfold update_progress_register
        simp
      · have hhead : aggregate (update_progress_register st0 0 t) =
            ((st0.map (fun e => e.done)).sum,
             (st0.map (fun e => e.total)).sum + ((t :: rest).take 1).sum) := by
          unfold aggregate update_progress_register
          rw [Prod.mk.injEq]
          constructor
          · rw [List.map_append, List.sum_append]
            simp
          · rw [List.map_append, List.sum_append]
            simp
        have htail : (List.range rest.length).map (fun i =>
              (((update_progress_register st0 0 t).map (fun e => e.done)).sum,
               ((update_progress_register st0 0 t).map (fun e => e.total)).sum +
                 (rest.take (i + 1)).sum)) =
            (List.range rest.length).map (fun i =>
              ((st0.map (fun e => e.done)).sum,
               (st0.map (fun e => e.total)).sum + ((t :: rest).take (i + 1 + 1)).sum)) := by
          apply List.map_congr_left
          intro i _
          unfold update_progress_register
          rw [Prod.mk.injEq]
          constructor
          · rw [List.map_append, List.sum_append]
            simp
          · rw [List.map_append, List.sum_append, List.take_succ_cons, List.sum_cons]
            simp
            omega
        rw [htail, hhead]
        rw [show List.range (t :: rest).length = 0 :: (List.range rest.length).map Nat.succ
          from List.range_succ_eq_map rest.length]
        rw [List.map_cons, List.map_map, List.append_assoc, List.singleton_append]
        rfl


lemma update_progress_done_collapse (st : List ProgressEntry) (i d d' : Nat) :
    update_progress_done (update_progress_done st i d) i d' =
      update_progress_done st i d' := by
  unfold update_progress_done
  by_cases hi : i < st.length
  · have hget : ((st.set i ⟨d, (st.getD i ⟨0, 0⟩).total⟩).getD i ⟨0, 0⟩) =
        ⟨d, (st.getD i ⟨0, 0⟩).total⟩ := by
      rw [List.getD_eq_getElem _ _ (by rw [List.length_set]; exact hi)]
      exact List.getElem_set_self _
    rw [hget, List.set_set]
  · rw [List.set_eq_of_length_le (by rw [List.length_set]; omega),
      List.set_eq_of_length_le (by omega), List.set_eq_of_length_le (by omega)]

lemma handle_request_progress_spec (st : List ProgressEntry) (i t : Nat) :
    handle_request_progress st i t =
      (if t = 0 then st else update_progress_done st i t,
       (List.range t).map (fun j => aggregate (update_progress_done st i (j + 1)))) := by
  induction t with
  | zero => rfl
  | succ t ih =>
      unfold handle_request_progress at ih ⊢
      rw [List.range_succ, List.foldl_append, ih, List.foldl_cons, List.foldl_nil]
      dsimp only
      rw [Prod.mk.injEq]
      have hne : ¬(t + 1 = 0) := by omega
      constructor
      · rw [if_neg hne]
        by_cases ht : t = 0
        · subst ht
          rw [if_pos rfl]
        · rw [if_neg ht, update_progress_done_collapse]
      · rw [List.map_append]
        congr 1
        by_cases ht : t = 0
        · subst ht
          rw [if_pos rfl]
          rfl
        · rw [if_neg ht, update_progress_done_collapse]
          rfl

lemma stateAfter_length (totals : List Nat) (m : Nat) :
    (stateAfter totals m).length = totals.length := by
  simp [stateAfter]

lemma stateAfter_zero (totals : List Nat) :
    stateAfter totals 0 = totals.map (fun t => ⟨0, t⟩) := by
  apply List.ext_getElem
  · simp [stateAfter]
  · intro k h1 h2
    have hk : k < totals.length := by simpa [stateAfter] using h1
    simp [stateAfter, List.getD_eq_getElem, List.getElem?_eq_getElem hk]

lemma stateAfter_getD (totals : List Nat) (m : Nat) (hm : m < totals.length) :
    (stateAfter totals m).getD m ⟨0, 0⟩ = ⟨0, totals.getD m 0⟩ := by
  rw [List.getD_eq_getElem _ _ (by rw [stateAfter_length]; exact hm)]
  simp [stateAfter]

lemma stateAfter_done_sum (totals : List Nat) (m : Nat) (hm : m ≤ totals.length) :
    ((stateAfter totals m).map (fun e => e.done)).sum = (totals.take m).sum := by
  unfold stateAfter
  rw [List.map_map]
  obtain ⟨d, hd⟩ : ∃ d, totals.length = m + d := ⟨totals.length - m, by omega⟩
  rw [hd, List.range_add, List.map_append, List.sum_append]
  have h1 : (List.range m).map ((fun e : ProgressEntry => e.done) ∘ fun k =>
      if k < m then ⟨totals.getD k 0, totals.getD k 0⟩ else ⟨0, totals.getD k 0⟩) =
      (List.range m).map (fun k => totals.getD k 0) := by
    apply List.map_congr_left
    intro i hi
    have : i < m := List.mem_range.mp hi
    simp [Function.comp, this]
  have h2 : ((List.range d).map (fun x => m + x)).map
      ((fun e : ProgressEntry => e.done) ∘ fun k =>
      if k < m then ⟨totals.getD k 0, totals.getD k 0⟩ else ⟨0, totals.getD k 0⟩) =
      ((List.range d).map (fun x => m + x)).map (fun _ => 0) := by
    apply List.map_congr_left
    intro i hi
    obtain ⟨x, _, rfl⟩ := List.mem_map.mp hi
    simp [Function.comp, Nat.not_lt.mpr (Nat.le_add_right m x)]
  rw [h1, h2, sum_range_getD]
  have h3 : ((List.map (fun x => m + x) (List.range d)).map (fun _ => 0)).sum = 0 := by
    apply List.sum_eq_zero
    intro x hx
    obtain ⟨y, _, rfl⟩ := List.mem_map.mp hx
    rfl
  omega

lemma stateAfter_total_sum (totals : List Nat) (m : Nat) :
    ((stateAfter totals m).map (fun e => e.total)).sum = totals.sum := by
  unfold stateAfter
  rw [List.map_map]
  have h1 : (List.range totals.length).map ((fun e : ProgressEntry => e.total) ∘ fun k =>
      if k < m then ⟨totals.getD k 0, totals.getD k 0⟩ else ⟨0, totals.getD k 0⟩) =
      (List.range totals.length).map (fun k => totals.getD k 0) := by
    apply List.map_congr_left
    intro i _
    by_cases h : i < m <;> simp [Function.comp, h]
  rw [h1, sum_range_getD, List.take_length]

lemma aggregate_update_done (totals : List Nat) (m d : Nat) (hm : m < totals.length) :
    aggregate (update_progress_done (stateAfter totals m) m d) =
      ((totals.take m).sum + d, totals.sum) := by
  unfold aggregate update_progress_done
  have hlen : m < (stateAfter totals m).length := by rw [stateAfter_length]; exact hm
  have hdone := sum_map_set (stateAfter totals m) m
    ⟨d, ((stateAfter totals m).getD m ⟨0, 0⟩).total⟩ (fun e => e.done) hlen
  have htotal := sum_map_set (stateAfter totals m) m
    ⟨d, ((stateAfter totals m).getD m ⟨0, 0⟩).total⟩ (fun e => e.total) hlen
  rw [stateAfter_getD totals m hm] at hdone htotal
  rw [stateAfter_done_sum totals m (Nat.le_of_lt hm)] at hdone
  rw [stateAfter_total_sum totals m] at htotal
  rw [Prod.mk.injEq]
  constructor
  · rw [stateAfter_getD totals m hm]
    dsimp only at hdone ⊢
    omega
  · rw [stateAfter_getD totals m hm]
    dsimp only at htotal ⊢
    omega

lemma state_step (totals : List Nat) (m : Nat) (hm : m < totals.length) :
    (if totals.getD m 0 = 0 then stateAfter totals m
     else update_progress_done (stateAfter totals m) m (totals.getD m 0)) =
      stateAfter totals (m + 1) := by
  by_cases h0 : totals.getD m 0 = 0
  · rw [if_pos h0]
    apply List.ext_getElem
    · simp [stateAfter]
    · intro k h1 h2
      have hk : k < totals.length := by simpa [stateAfter] using h1
      simp only [stateAfter, List.getElem_map, List.getElem_range]
      by_cases hkm : k < m
      · rw [if_pos hkm, if_pos (by omega)]
      · rw [if_neg hkm]
        by_cases hkm1 : k < m + 1
        · rw [if_pos hkm1]
          have hke : k = m := by omega
          subst hke
          rw [h0]
        · rw [if_neg hkm1]
  · rw [if_neg h0]
    unfold update_progress_done
    apply List.ext_getElem
    · simp [stateAfter]
    · intro k h1 h2
      have hk : k < totals.length := by
        have := h2
        simpa [stateAfter] using this
      by_cases hkm : k = m
      · subst hkm
        rw [List.getElem_set_self _]
        rw [stateAfter_getD totals k hk]
        simp only [stateAfter, List.getElem_map, List.getElem_range]
        rw [if_pos (by omega)]
      · rw [List.getElem_set_ne (fun he => hkm he.symm)]
        simp only [stateAfter, List.getElem_map, List.getElem_range]
        by_cases hkl : k < m
        · rw [if_pos hkl, if_pos (by omega)]
        · rw [if_neg hkl, if_neg (by omega)]

lemma dispatch_fold_closed (totals : List Nat) (m : Nat) (hm : m ≤ totals.length) :
    (List.range m).foldl
      (fun (acc : List ProgressEntry × List (Nat × Nat)) i =>
        let hr := handle_request_progress acc.1 i (totals.getD i 0)
        (hr.1, acc.2 ++ hr.2)) (stateAfter totals 0, []) =
      (stateAfter totals m,
       (List.range m).flatMap (fun i => (List.range (totals.getD i 0)).map
          (fun j => ((totals.take i).sum + (j + 1), totals.sum)))) := by
  induction m with
  | zero => simp
  | succ m ih =>
      have hm' : m ≤ totals.length := by omega
      have hmlt : m < totals.length := by omega
      rw [List.range_succ, List.foldl_append, ih hm', List.foldl_cons, List.foldl_nil]
      dsimp only
      rw [handle_request_progress_spec]
      dsimp only
      rw [Prod.mk.injEq]
      constructor
      · exact state_step totals m hmlt
      · rw [List.flatMap_append, List.flatMap_cons, List.flatMap_nil, List.append_nil]
        congr 1
        apply List.map_congr_left
        intro j _
        exact aggregate_update_done totals m (j + 1) hmlt

lemma range_flat_offsets (l : List Nat) (c : Nat) :
    (List.range l.length).flatMap (fun i =>
      (List.range (l.getD i 0)).map (fun j => c + (l.take i).sum + j)) =
    (List.range l.sum).map (fun j => c + j) := by
  induction l generalizing c with
  | nil => simp
  | cons t rest ih =>
      rw [List.length_cons, List.range_succ_eq_map, List.flatMap_cons, List.flatMap_map]
      have hhead : (List.range ((t :: rest).getD 0 0)).map
          (fun j => c + ((t :: rest).take 0).sum + j) =
          (List.range t).map (fun j => c + j) := by
        apply List.map_congr_left
        intro j _
        simp
      have hfun : (fun a : Nat =>
          List.map (fun j => c + (List.take a.succ (t :: rest)).sum + j)
            (List.range ((t :: rest).getD a.succ 0))) =
          (fun i : Nat =>
            List.map (fun j => c + t + (List.take i rest).sum + j)
              (List.range (rest.getD i 0))) := by
        funext a
        simp only [Nat.succ_eq_add_one, List.getD_cons_succ, List.take_succ_cons,
          List.sum_cons]
        congr 1
        funext j
        omega
      rw [hhead, hfun, ih (c + t)]
      rw [List.sum_cons, List.range_add, List.map_append, List.map_map]
      congr 1
      apply List.map_congr_left
      intro j _
      simp only [Function.comp]
      omega

lemma widgetGroupTrace_closed (totals : List Nat) :
    widgetGroupTrace totals =
      (List.range totals.length).map (fun i => (0, (totals.take (i + 1)).sum)) ++
      (List.range totals.sum).map (fun q => (q + 1, totals.sum)) := by
  unfold widgetGroupTrace
  dsimp only
  rw [pre_register_requests_closed]
  dsimp only
  rw [← stateAfter_zero]
  rw [dispatch_fold_closed totals totals.length (le_refl _)]
  dsimp only
  congr 1
  have h1 : (fun i => (List.range (totals.getD i 0)).map
      (fun j => ((totals.take i).sum + (j + 1), totals.sum))) =
      (fun i => ((List.range (totals.getD i 0)).map
        (fun j => 1 + (totals.take i).sum + j)).map (fun q => (q, totals.sum))) := by
    funext i
    rw [List.map_map]
    congr 1
    funext j
    simp only [Function.comp]
    congr 1
    omega
  rw [h1, ← List.map_flatMap, range_flat_offsets totals 1, List.map_map]
  apply List.map_congr_left
  intro q _
  simp only [Function.comp]
  congr 1
  omega

/-- C7: within one request group seeded by `pre_register_requests` with
progress `(0, len(xys))` per request, the sequence of aggregated
`(done_sum, total_sum)` pairs emitted by `update_progress` during dispatch
is monotonically non-decreasing in `done_sum`, and every emitted pair
satisfies `done_sum ≤ total_sum`. -/
theorem widget_progress_monotone (totals : List Nat) :
    List.Chain' (fun a b => a.1 ≤ b.1) (widgetGroupTrace totals) ∧
    ∀ p ∈ widgetGroupTrace totals, p.1 ≤ p.2 := by
  rw [widgetGroupTrace_closed]
  constructor
  · apply List.Chain'.append
    · apply List.Pairwise.chain'
      rw [List.pairwise_map]
      exact (List.pairwise_lt_range _).imp (fun _ => Nat.zero_le _)
    · apply List.Pairwise.chain'
      rw [List.pairwise_map]
      refine (List.pairwise_lt_range _).imp ?_
      intro a b h
      exact Nat.add_le_add_right h.le 1
    · intro x hx y hy
      have hx' := List.mem_of_mem_getLast? hx
      obtain ⟨i, _, rfl⟩ := List.mem_map.mp hx'
      exact Nat.zero_le _
  · intro p hp
    rcases List.mem_append.mp hp with h | h
    · obtain ⟨i, _, rfl⟩ := List.mem_map.mp h
      exact Nat.zero_le _
    · obtain ⟨q, hq, rfl⟩ := List.mem_map.mp h
      exact List.mem_range.mp hq

theorem widget_progress_monotone_witness :
    List.Chain' (fun a b => a.1 ≤ b.1) (widgetGroupTrace [2, 0, 1]) ∧
    ∀ p ∈ widgetGroupTrace [2, 0, 1], p.1 ≤ p.2 :=
  widget_progress_monotone [2, 0, 1]
